import Mathlib

/-!
# Verification of the fs-watcher reconciliation core

A shallow embedding of the reconciliation core of the `@mysticatea/fs-watcher`
library: the native (`RegularDirectoryWatcher`) and polling
(`PollingDirectoryWatcher`) directory watchers, the recursive `GlobWatcher`,
and the glob-matcher utilities.  JavaScript `Map` objects are embedded as
insertion-ordered association lists (`JMap`), `fs.Stats` records as a plain
structure carrying the fields the code inspects, promise outcomes as
`Except Err Unit`, and the event-emitter surface as explicit lists of emitted
events returned by each operation.
-/

set_option autoImplicit false

namespace FsWatcher

/-! ## Basic data model -/

/-- The kind of a filesystem entry, as reported by `fs.Stats`. -/
inductive FileKind where
  | file
  | directory
  | other
  deriving DecidableEq, Repr

/-- The fields of an `fs.Stats` snapshot that the watcher code inspects:
`size`, `mtime` (milliseconds), `dev`, `ino`, and the entry kind
(`isFile()` / `isDirectory()`). -/
structure Stats where
  size : Nat
  mtimeMs : Nat
  dev : Nat
  ino : Nat
  kind : FileKind
  deriving DecidableEq, Repr

/-- `fs.Stats#isDirectory()`. -/
def Stats.isDirectory (s : Stats) : Bool :=
  s.kind = FileKind.directory

/-- `fs.Stats#isFile()`. -/
def Stats.isFile (s : Stats) : Bool :=
  s.kind = FileKind.file

/-- The three-state lifecycle shared by all watchers (the `State` enum that
appears in each watcher module). -/
inductive LifecycleState where
  | Initializing
  | Alive
  | Disposed
  deriving DecidableEq, Repr

/-- The label of a queued operation or an emitted event. -/
inductive OpType where
  | add
  | change
  | remove
  deriving DecidableEq, Repr

/-- An entry of `RegularDirectoryWatcher#_queue` (interface `Operation`). -/
structure Operation where
  type : OpType
  stat : Stats
  deriving DecidableEq, Repr

/-- An emitted file event: the label together with the `FileEvent` payload
`\x7b path, stat \x7d`. -/
structure EmittedEvent where
  type : OpType
  path : String
  stat : Stats
  deriving DecidableEq, Repr

/-- A filesystem error, carrying the `code` property the library inspects
(for example `"ENOENT"`). -/
structure Err where
  code : String
  deriving DecidableEq, Repr

/-- The `ENOENT` error raised for a missing path. -/
def enoent : Err := { code := "ENOENT" }

/-- The settled result of a filesystem operation or of a promise: a value,
or a rejection carrying an error. -/
inductive FsResult (α : Type) where
  | ok (value : α)
  | error (e : Err)
  deriving DecidableEq, Repr

/-- The settled outcome of a promise such as `ready` or the result of
`close()`: resolution, or rejection with an error. -/
abbrev Outcome : Type := FsResult Unit

/-! ## JavaScript `Map` as an insertion-ordered association list

`JMap.set` overwrites the value of an existing key in place (JS `Map.set`
keeps the original insertion position), `JMap.del` removes the entry, and
`JMap.get` returns the value or `none`. -/

/-- A JavaScript `Map` value: an insertion-ordered list of key/value pairs. -/
def JMap (α β : Type) : Type :=
  List (α × β)

instance instJMapDecidableEq {α β : Type} [DecidableEq α] [DecidableEq β] :
    DecidableEq (JMap α β) :=
  inferInstanceAs (DecidableEq (List (α × β)))

instance instJMapRepr {α β : Type} [Repr α] [Repr β] : Repr (JMap α β) :=
  inferInstanceAs (Repr (List (α × β)))

namespace JMap

variable {α β : Type} [DecidableEq α]

/-- The empty map (`new Map()`). -/
def empty : JMap α β :=
  ([] : List (α × β))

/-- `Map#get`, returning `none` for a missing key. -/
def get : JMap α β → α → Option β
  | [], _ => none
  | (k, v) :: rest, a => if k = a then some v else get rest a

/-- `Map#set`: overwrite an existing key in place, else append. -/
def set : JMap α β → α → β → JMap α β
  | [], a, b => [(a, b)]
  | (k, v) :: rest, a, b =>
    if k = a then (k, b) :: rest else (k, v) :: set rest a b

/-- `Map#delete`. -/
def del : JMap α β → α → JMap α β
  | [], _ => []
  | (k, v) :: rest, a => if k = a then rest else (k, v) :: del rest a

/-- `Map#has`. -/
def hasKey (m : JMap α β) (a : α) : Bool :=
  (m.get a).isSome

/-- The list of entries, in insertion order (`Array.from(map)`). -/
def entries (m : JMap α β) : List (α × β) :=
  m

/-- The keys of the map are pairwise distinct (every map reachable through
the `JMap` operations from `empty` satisfies this, as a JS `Map` does). -/
def NodupKeys (m : JMap α β) : Prop :=
  ((entries m).map Prod.fst).Nodup

end JMap

/-! ## The native watcher's pending queue (`RegularDirectoryWatcher`)

The three `_enqueueFileAs*` methods of
`src/internal/regular-directory-watcher.ts`, restricted to their effect on
`this._queue` (each also calls the debounced `_consumeQueue`, which is
modelled separately in the system model below). -/

/-- `RegularDirectoryWatcher#_enqueueFileAsAdded`:
`entry == null || entry.type === "add" ? "add" : "change"`. -/
def enqueueFileAsAdded (queue : JMap String Operation) (filePath : String)
    (stat : Stats) : JMap String Operation :=
  let entry := queue.get filePath
  let t : OpType :=
    match entry with
    | none => OpType.add
    | some e => if e.type = OpType.add then OpType.add else OpType.change
  queue.set filePath { type := t, stat := stat }

/-- `RegularDirectoryWatcher#_enqueueFileAsRemoved`:
a pending `add` entry is deleted, otherwise the entry becomes `remove`. -/
def enqueueFileAsRemoved (queue : JMap String Operation) (filePath : String)
    (stat : Stats) : JMap String Operation :=
  match queue.get filePath with
  | some e =>
    if e.type = OpType.add then queue.del filePath
    else queue.set filePath { type := OpType.remove, stat := stat }
  | none => queue.set filePath { type := OpType.remove, stat := stat }

/-- `RegularDirectoryWatcher#_enqueueFileAsChanged`:
`entry != null && entry.type === "add" ? "add" : "change"`. -/
def enqueueFileAsChanged (queue : JMap String Operation) (filePath : String)
    (stat : Stats) : JMap String Operation :=
  let t : OpType :=
    match queue.get filePath with
    | some e => if e.type = OpType.add then OpType.add else OpType.change
    | none => OpType.change
  queue.set filePath { type := t, stat := stat }

/-! ## Glob matcher (`src/internal/utils/glob.ts`)

The per-pattern matchers produced by `micromatch.matcher` are treated as
given predicates (the claims quantify over them), so `createFileMatcher`
is embedded as a function of two predicate lists. -/

/-- `normalizePathPosix`: strip one trailing slash except for the root, and
turn the empty path into `"."` (the JS `originalPath || "."`). -/
def normalizePathPosix (originalPath : String) : String :=
  if originalPath.data.getLast? = some '/' ∧ originalPath ≠ "/" then
    String.mk originalPath.data.dropLast
  else if originalPath = "" then "."
  else originalPath

/-- `alwaysFalse`. -/
def alwaysFalse (_ : String) : Bool :=
  false

/-- The inner loop of `isMatch2` over the exclude predicates
(`for (const g of this.excludes) ... break`). -/
def isMatch2Excl (excludes : List (String → Bool)) (relPath : String) : Bool :=
  excludes.any (fun g => g relPath)

/-- The loop of `isMatch1` over the include predicates. -/
def isMatch1Loop (relPath : String) : List (String → Bool) → Bool
  | [] => false
  | f :: fs => if f relPath then true else isMatch1Loop relPath fs

/-- `isMatch1`: some include matches the normalized path. -/
def isMatch1 (includes : List (String → Bool)) (filePath : String) : Bool :=
  isMatch1Loop (normalizePathPosix filePath) includes

/-- The loop of `isMatch2` over the include predicates: on an include hit,
return `true` unless some exclude also matches, in which case the include
loop continues. -/
def isMatch2Loop (excludes : List (String → Bool)) (relPath : String) :
    List (String → Bool) → Bool
  | [] => false
  | f :: fs =>
    if f relPath then
      if isMatch2Excl excludes relPath then isMatch2Loop excludes relPath fs
      else true
    else isMatch2Loop excludes relPath fs

/-- `isMatch2`: some include matches the normalized path and no exclude
matches it. -/
def isMatch2 (includes excludes : List (String → Bool)) (filePath : String) :
    Bool :=
  isMatch2Loop excludes (normalizePathPosix filePath) includes

/-- `createFileMatcher`: `alwaysFalse` when there are no includes, the
include-only fast path when there are no excludes, and `isMatch2`
otherwise. -/
def createFileMatcher (positives negatives : List (String → Bool)) :
    String → Bool :=
  if positives.length = 0 then alwaysFalse
  else if negatives.length = 0 then isMatch1 positives
  else isMatch2 positives negatives

/-! ## Brace expansion (`divideSelectionInGlob`)

Patterns are embedded as `List Char`.  The source recursion is not
structural (and in fact diverges when the first closing brace precedes the
first opening brace), so the embedding is fuelled: `none` means the fuel ran
out before the source recursion finished. -/

/-- The opening brace character. -/
def lbrace : Char := Char.ofNat 123

/-- The closing brace character. -/
def rbrace : Char := Char.ofNat 125

/-- The backslash character. -/
def backslashChar : Char := '\\'

/-- `isEscaped(text, index)`: the character at `index` is preceded by an odd
number of consecutive backslashes (the source loops backwards toggling a
flag while it sees backslashes). -/
def isEscaped (text : List Char) (index : Nat) : Bool :=
  ((text.take index).reverse.takeWhile (fun c => c = backslashChar)).length
    % 2 = 1

/-- JS `String#indexOf` for a single character (`none` instead of `-1`). -/
def indexOfChar (text : List Char) (c : Char) : Option Nat :=
  text.findIdx? (fun x => x = c)

/-- `divideSelectionInGlob(pattern, outPatterns)`: split at the first
unescaped opening brace and the first unescaped closing brace, and recurse
on each comma-separated alternative; a pattern without such a pair is kept
whole.  Returns the pushed patterns in push order. -/
def divideSelectionInGlob (fuel : Nat) (pattern : List Char) :
    Option (List (List Char)) :=
  match fuel with
  | 0 => none
  | fuel' + 1 =>
    match indexOfChar pattern lbrace with
    | none => some [pattern]
    | some left =>
      if isEscaped pattern left then some [pattern]
      else
        match indexOfChar pattern rbrace with
        | none => some [pattern]
        | some right =>
          if isEscaped pattern right then some [pattern]
          else
            let parts := ((pattern.take right).drop (left + 1)).splitOn ','
            (parts.mapM (fun part =>
                divideSelectionInGlob fuel'
                  (pattern.take left ++ part ++ pattern.drop (right + 1)))).map
              (fun results => results.flatten)

/-! ## The native watcher (`RegularDirectoryWatcher`) as a state machine

The debounced `_consumeQueue` wrapper is installed on the **prototype**
(`RegularDirectoryWatcher.prototype._consumeQueue = debounce(...)`), so its
timer and captured `this` context are shared by every instance.  The system
model therefore keeps one `DebState` next to a map of watcher instances, and
the `debounce` package is embedded by its observable behaviour: a call
stores the caller as the context and ensures the timer is active, firing
runs the raw `_consumeQueue` on the stored context and deactivates the
timer, and `clear()` (used by `close()`) deactivates the timer. -/

/-- The per-instance fields of a `RegularDirectoryWatcher`. -/
structure RegW where
  stats : JMap String Stats
  queue : JMap String Operation
  state : LifecycleState
  ready : Outcome
  deriving DecidableEq, Repr

/-- The closure state of the shared `debounce(...)` wrapper. -/
structure DebState where
  timerActive : Bool
  context : Option Nat
  deriving DecidableEq, Repr

/-- All live `RegularDirectoryWatcher` instances plus the shared debounce
wrapper state. -/
structure Sys where
  watchers : JMap Nat RegW
  deb : DebState
  deriving DecidableEq, Repr

/-- Invoking the debounced wrapper (`this._consumeQueue()`): record the
caller as the context and make sure a timer is pending. -/
def debCall (wid : Nat) : DebState :=
  { timerActive := true, context := some wid }

/-- `(this._consumeQueue as any).clear()`: drop the pending timer. -/
def debClear (d : DebState) : DebState :=
  { d with timerActive := false }

/-- The raw `_consumeQueue` body: snapshot the queue entries, clear the
queue, and emit each entry as an event. -/
def consumeQueueRaw (w : RegW) : RegW × List EmittedEvent :=
  let entries := w.queue.entries
  ({ w with queue := JMap.empty },
    entries.map (fun kv => { type := kv.2.type, path := kv.1, stat := kv.2.stat }))

/-- The resumption of `_onChange` after `await getStats(filePath)`, with
`currStat` the stat result (`none` when the file is absent).  Returns the
updated watcher and whether the debounced wrapper was invoked (each
`_enqueueFileAs*` ends by calling `this._consumeQueue()`). -/
def onChangeResume (w : RegW) (filePath : String) (currStat : Option Stats) :
    RegW × Bool :=
  if w.state = LifecycleState.Disposed then (w, false)
  else
    let prevStat := w.stats.get filePath
    match currStat with
    | some c =>
      let w' := { w with stats := w.stats.set filePath c }
      if w.state = LifecycleState.Alive then
        match prevStat with
        | none =>
          ({ w' with queue := enqueueFileAsAdded w'.queue filePath c }, true)
        | some _ =>
          if c.isDirectory then (w', false)
          else
            ({ w' with queue := enqueueFileAsChanged w'.queue filePath c },
              true)
      else (w', false)
    | none =>
      match prevStat with
      | some p =>
        let w' := { w with stats := w.stats.del filePath }
        if w.state = LifecycleState.Alive then
          ({ w' with queue := enqueueFileAsRemoved w'.queue filePath p }, true)
        else (w', false)
      | none => (w, false)

/-- `RegularDirectoryWatcher#close` on instance `wid`: unless already
Disposed, clear `stats` and `_queue`, dispose, and clear the (shared)
debounce timer; the returned promise is `this.ready` in every case. -/
def Sys.closeW (s : Sys) (wid : Nat) : Sys × Outcome :=
  match s.watchers.get wid with
  | none => (s, FsResult.ok ())
  | some w =>
    if w.state = LifecycleState.Disposed then (s, w.ready)
    else
      ({ watchers := s.watchers.set wid
            { w with
              stats := JMap.empty
              queue := JMap.empty
              state := LifecycleState.Disposed }
         deb := debClear s.deb }, w.ready)

/-- An environment step of the native-watcher system: the resumption of an
`_onChange` handler for some instance, the expiry of the shared debounce
timer, or a `close()` call. -/
inductive Act where
  | observe (wid : Nat) (filePath : String) (currStat : Option Stats)
  | fire
  | closeCall (wid : Nat)
  deriving DecidableEq, Repr

/-- One step of the native-watcher system, returning the emitted events
tagged with the emitting instance. -/
def Sys.step (s : Sys) : Act → Sys × List (Nat × EmittedEvent)
  | Act.observe wid filePath currStat =>
    match s.watchers.get wid with
    | none => (s, [])
    | some w =>
      let r := onChangeResume w filePath currStat
      ({ watchers := s.watchers.set wid r.1
         deb := if r.2 then debCall wid else s.deb }, [])
  | Act.fire =>
    if s.deb.timerActive then
      match s.deb.context with
      | some wid =>
        match s.watchers.get wid with
        | none =>
          ({ s with deb := { timerActive := false, context := none } }, [])
        | some w =>
          let r := consumeQueueRaw w
          ({ watchers := s.watchers.set wid r.1
             deb := { timerActive := false, context := none } },
            r.2.map (fun e => (wid, e)))
      | none =>
        ({ s with deb := { timerActive := false, context := none } }, [])
    else (s, [])
  | Act.closeCall wid => ((s.closeW wid).1, [])

/-- Run a list of steps, accumulating emitted events in order. -/
def Sys.run (s : Sys) : List Act → Sys × List (Nat × EmittedEvent)
  | [] => (s, [])
  | a :: rest =>
    let r := s.step a
    let r' := r.1.run rest
    (r'.1, r.2 ++ r'.2)

/-! ## The polling watcher (`PollingDirectoryWatcher`) as a state machine -/

/-- The fields of a `PollingDirectoryWatcher`: `stats`, the keys of
`_listeners` (installed `fs.watchFile` pollers), the lifecycle state, and
the settled `ready` outcome. -/
structure PollState where
  stats : JMap String Stats
  listeners : JMap String Unit
  state : LifecycleState
  ready : Outcome
  deriving DecidableEq, Repr

/-- The sentinel check `!stat || (stat.dev === 0 && stat.ino === 0)`
interpreting a zero-stat as "absent". -/
def sentinelFilter (stat : Option Stats) : Option Stats :=
  match stat with
  | none => none
  | some s => if s.dev = 0 ∧ s.ino = 0 then none else some s

/-- `PollingDirectoryWatcher#_onChildChange` (synchronous). -/
def onChildChange (w : PollState) (filePath : String) (stat : Option Stats) :
    PollState × List EmittedEvent :=
  if w.state = LifecycleState.Disposed then (w, [])
  else
    let prevStat := w.stats.get filePath
    let currStat := sentinelFilter stat
    match prevStat, currStat with
    | some p, some c =>
      if p.mtimeMs < c.mtimeMs then
        let w' := { w with stats := w.stats.set filePath c }
        if ¬c.isDirectory ∧ w.state = LifecycleState.Alive then
          (w', [{ type := OpType.change, path := filePath, stat := c }])
        else (w', [])
      else (w, [])
    | _, _ => (w, [])

/-- The resumption of `_startWatchingChild` after `await getStats`. -/
def startWatchingChildResume (w : PollState) (filePath : String)
    (stat : Option Stats) : PollState × List EmittedEvent :=
  match stat with
  | none => (w, [])
  | some st =>
    if w.state = LifecycleState.Disposed then (w, [])
    else
      let w' := { w with
        stats := w.stats.set filePath st
        listeners := w.listeners.set filePath () }
      if w.state = LifecycleState.Alive then
        (w', [{ type := OpType.add, path := filePath, stat := st }])
      else (w', [])

/-- `PollingDirectoryWatcher#_stopWatchingChild`. -/
def stopWatchingChild (w : PollState) (filePath : String) :
    PollState × List EmittedEvent :=
  match w.stats.get filePath with
  | none => (w, [])
  | some st =>
    let w' := { w with
      stats := w.stats.del filePath
      listeners := w.listeners.del filePath }
    if w.state = LifecycleState.Alive then
      (w', [{ type := OpType.remove, path := filePath, stat := st }])
    else (w', [])

/-- `PollingDirectoryWatcher#close`: unless already Disposed, clear `stats`,
uninstall every poller, and dispose; the returned promise is `this.ready`. -/
def PollState.close (w : PollState) : PollState × Outcome :=
  if w.state = LifecycleState.Disposed then (w, w.ready)
  else
    ({ w with
        stats := JMap.empty
        listeners := JMap.empty
        state := LifecycleState.Disposed }, w.ready)

/-- An environment step of a polling watcher. -/
inductive PollAct where
  | childChange (filePath : String) (stat : Option Stats)
  | startChildResume (filePath : String) (stat : Option Stats)
  | stopChild (filePath : String)
  | closeCall
  deriving DecidableEq, Repr

/-- One step of a polling watcher. -/
def pollStep (w : PollState) : PollAct → PollState × List EmittedEvent
  | PollAct.childChange filePath stat => onChildChange w filePath stat
  | PollAct.startChildResume filePath stat =>
    startWatchingChildResume w filePath stat
  | PollAct.stopChild filePath => stopWatchingChild w filePath
  | PollAct.closeCall => ((PollState.close w).1, [])

/-- Run a list of polling-watcher steps. -/
def pollRun (w : PollState) : List PollAct → PollState × List EmittedEvent
  | [] => (w, [])
  | a :: rest =>
    let r := pollStep w a
    let r' := pollRun r.1 rest
    (r'.1, r.2 ++ r'.2)

/-! ## The recursive glob watcher (`GlobWatcher`) as a state machine -/

/-- The fields of a `GlobWatcher`: the admitted-files map `stats`, the keys
of the `_watchers` map (child directory watchers, abstracted to their
paths), the lifecycle state, and the settled `ready` outcome.  The compiled
`_isMatch` predicate is a parameter of the operations. -/
structure GlobState where
  stats : JMap String Stats
  watchers : JMap String Unit
  state : LifecycleState
  ready : Outcome
  deriving DecidableEq, Repr

/-- `GlobWatcher#_addFile`: admit the file only if it is new and matches;
emit `add` only when Alive. -/
def GlobState.addFile (isM : String → Bool) (g : GlobState)
    (filePath : String) (stat : Stats) : GlobState × List EmittedEvent :=
  if ¬g.stats.hasKey filePath ∧ isM filePath then
    let g' := { g with stats := g.stats.set filePath stat }
    if g.state = LifecycleState.Alive then
      (g', [{ type := OpType.add, path := filePath, stat := stat }])
    else (g', [])
  else (g, [])

/-- `GlobWatcher#_removeFile`: only previously admitted paths are removed,
emitting the stored metadata. -/
def GlobState.removeFile (g : GlobState) (filePath : String) :
    GlobState × List EmittedEvent :=
  match g.stats.get filePath with
  | none => (g, [])
  | some st =>
    let g' := { g with stats := g.stats.del filePath }
    if g.state = LifecycleState.Alive then
      (g', [{ type := OpType.remove, path := filePath, stat := st }])
    else (g', [])

/-- `GlobWatcher#_changeFile`: only previously admitted paths emit
`change`. -/
def GlobState.changeFile (g : GlobState) (filePath : String) (stat : Stats) :
    GlobState × List EmittedEvent :=
  if g.stats.hasKey filePath then
    let g' := { g with stats := g.stats.set filePath stat }
    if g.state = LifecycleState.Alive then
      (g', [{ type := OpType.change, path := filePath, stat := stat }])
    else (g', [])
  else (g, [])

/-- `GlobWatcher#close`: unless already Disposed, clear `stats`, snapshot
and clear `_watchers`, dispose, and close the children; the awaited result
is `this.ready`. -/
def GlobState.close (g : GlobState) : GlobState × Outcome :=
  if g.state = LifecycleState.Disposed then (g, g.ready)
  else
    ({ g with
        stats := JMap.empty
        watchers := JMap.empty
        state := LifecycleState.Disposed }, g.ready)

/-- The `Alive` transition at the end of `GlobWatcher#_open`, guarded by the
`Disposed` re-check after the awaited directory additions. -/
def GlobState.setAlive (g : GlobState) : GlobState :=
  if g.state = LifecycleState.Disposed then g
  else { g with state := LifecycleState.Alive }

/-- An environment step of a glob watcher: a child-watcher event handler
invoking one of the `_addFile` / `_removeFile` / `_changeFile` helpers, the
`Alive` transition, or a `close()` call. -/
inductive GlobAct where
  | addFile (filePath : String) (stat : Stats)
  | removeFile (filePath : String)
  | changeFile (filePath : String) (stat : Stats)
  | setAlive
  | closeCall
  deriving Repr

/-- One step of a glob watcher. -/
def globStep (isM : String → Bool) (g : GlobState) :
    GlobAct → GlobState × List EmittedEvent
  | GlobAct.addFile filePath stat => g.addFile isM filePath stat
  | GlobAct.removeFile filePath => g.removeFile filePath
  | GlobAct.changeFile filePath stat => g.changeFile filePath stat
  | GlobAct.setAlive => (g.setAlive, [])
  | GlobAct.closeCall => ((GlobState.close g).1, [])

/-- Run a list of glob-watcher steps. -/
def globRun (isM : String → Bool) (g : GlobState) :
    List GlobAct → GlobState × List EmittedEvent
  | [] => (g, [])
  | a :: rest =>
    let r := globStep isM g a
    let r' := globRun isM r.1 rest
    (r'.1, r.2 ++ r'.2)

/-- The freshly constructed glob watcher (empty maps, Initializing). -/
def GlobState.initial : GlobState :=
  { stats := JMap.empty
    watchers := JMap.empty
    state := LifecycleState.Initializing
    ready := FsResult.ok () }

/-! ## Initialization against an external world (`_open`)

The external primitives of §6: `readdir` on the watched directory and
`stat` on arbitrary paths.  Following the `utils` module, `getStats`
resolves `null` for a missing file (`ENOENT` is interpreted as absence), so
it is embedded as `String → Option Stats`. -/

/-- The behaviour of the filesystem primitives during initialization. -/
structure World where
  readDirResult : FsResult (List String)
  statOf : String → Option Stats

/-- `path.join(this.path, filename)` for an absolute directory path. -/
def pathJoin (dirPath name : String) : String :=
  dirPath ++ "/" ++ name

/-- Construction plus settled `_open` of a `RegularDirectoryWatcher`: on a
`readdir` failure the watcher closes itself and `ready` rejects with the
underlying error; on success the initial children are recorded silently
(the `Initializing` state suppresses enqueueing) and the watcher becomes
Alive. -/
def mkRegularDirectoryWatcher (world : World) (dirPath : String) : RegW :=
  match world.readDirResult with
  | FsResult.error e =>
    { stats := JMap.empty
      queue := JMap.empty
      state := LifecycleState.Disposed
      ready := FsResult.error e }
  | FsResult.ok names =>
    { stats := names.foldl
        (fun m n =>
          match world.statOf (pathJoin dirPath n) with
          | some st => m.set (pathJoin dirPath n) st
          | none => m) JMap.empty
      queue := JMap.empty
      state := LifecycleState.Alive
      ready := FsResult.ok () }

/-- Construction plus settled `_open` of a `PollingDirectoryWatcher`: the
initial `_updateChildren` pass reads the directory (rejecting `ready` after
an internal `close()` on failure) and silently starts watching each child;
finally the root poller is installed and the watcher becomes Alive. -/
def mkPollingDirectoryWatcher (world : World) (dirPath : String) :
    PollState :=
  match world.readDirResult with
  | FsResult.error e =>
    { stats := JMap.empty
      listeners := JMap.empty
      state := LifecycleState.Disposed
      ready := FsResult.error e }
  | FsResult.ok names =>
    let w1 : PollState := names.foldl
      (fun w n =>
        match world.statOf (pathJoin dirPath n) with
        | some st =>
          { w with
            stats := w.stats.set (pathJoin dirPath n) st
            listeners := w.listeners.set (pathJoin dirPath n) () }
        | none => w)
      { stats := JMap.empty
        listeners := JMap.empty
        state := LifecycleState.Initializing
        ready := FsResult.ok () }
    { w1 with
      listeners := w1.listeners.set dirPath ()
      state := LifecycleState.Alive }

/-! ## Admission discipline (for P1) -/

/-- Whether `path` counts as admitted after the event list `events`, given
whether it was admitted at the `Alive` transition: the last `add`/`remove`
event for the path decides, and with no such event the initial admission
stands. -/
def admittedAfter (path : String) (init : Bool)
    (events : List EmittedEvent) : Bool :=
  events.foldl
    (fun acc e =>
      if e.path = path then
        match e.type with
        | OpType.add => true
        | OpType.remove => false
        | OpType.change => acc
      else acc)
    init

/-- A `GlobWatcher` observed from the moment it became Alive, with `init`
the silently discovered initial file set. -/
def globAliveStart (init : JMap String Stats) : GlobState :=
  { stats := init
    watchers := JMap.empty
    state := LifecycleState.Alive
    ready := FsResult.ok () }

instance instJMapNodupKeysDecidable {α β : Type} [DecidableEq α]
    (m : JMap α β) : Decidable m.NodupKeys :=
  inferInstanceAs (Decidable ((JMap.entries m).map Prod.fst).Nodup)

/-- The admission invariant of a glob watcher that has become Alive:
the admitted-file keys are duplicate-free, the watcher never returns to
Initializing, and while Alive a path is in `stats` exactly when the event
stream emitted so far leaves it admitted. -/
def AdmInv (initAdm : String → Bool) (g : GlobState)
    (done : List EmittedEvent) : Prop :=
  g.stats.NodupKeys ∧ g.state ≠ LifecycleState.Initializing ∧
    (g.state = LifecycleState.Alive →
      ∀ p, g.stats.hasKey p = admittedAfter p (initAdm p) done)

/-- A polling watcher observed from the moment it became Alive, with
`init` the silently discovered initial children and `listeners` the
already-installed pollers. -/
def pollAliveStart (init : JMap String Stats)
    (listeners : JMap String Unit) : PollState :=
  { stats := init
    listeners := listeners
    state := LifecycleState.Alive
    ready := FsResult.ok () }

/-- The admission invariant of a polling watcher: the children keys are
duplicate-free, and while Alive a path is in `stats` exactly when the
emitted event stream leaves it admitted. -/
def PollAdmInv (initAdm : String → Bool) (w : PollState)
    (done : List EmittedEvent) : Prop :=
  w.stats.NodupKeys ∧
    (w.state = LifecycleState.Alive →
      ∀ p, w.stats.hasKey p = admittedAfter p (initAdm p) done)

/-- The events of `evs` emitted by instance `wid`, untagged: one native
watcher's own event stream inside the interleaved system stream. -/
def eventsFor (wid : Nat) (evs : List (Nat × EmittedEvent)) :
    List EmittedEvent :=
  (evs.filter (fun e => decide (e.1 = wid))).map Prod.snd

/-- The per-path admission relation of a native watcher: the pending-queue
entry for the path determines how `stats` membership and the admitted
state of the emitted stream relate — a pending `add` is in `stats` but not
yet announced, a pending `remove` is announced but already out of `stats`,
a pending `change` and an empty slot agree with the stream. -/
def PathAdm (initAdm : String → Bool) (w : RegW) (done : List EmittedEvent)
    (p : String) : Prop :=
  match w.queue.get p with
  | none => w.stats.hasKey p = admittedAfter p (initAdm p) done
  | some op =>
    match op.type with
    | OpType.add =>
      w.stats.hasKey p = true ∧ admittedAfter p (initAdm p) done = false
    | OpType.change =>
      w.stats.hasKey p = true ∧ admittedAfter p (initAdm p) done = true
    | OpType.remove =>
      w.stats.hasKey p = false ∧ admittedAfter p (initAdm p) done = true

/-- The admission invariant of one native watcher instance: duplicate-free
children and queue keys, an empty queue unless Alive (nothing is enqueued
while Initializing and `close()` clears the queue), and the per-path
relation while Alive. -/
def RegWAdm (initAdm : String → Bool) (w : RegW)
    (done : List EmittedEvent) : Prop :=
  w.stats.NodupKeys ∧ w.queue.NodupKeys ∧
    (w.state ≠ LifecycleState.Alive → w.queue = JMap.empty) ∧
    (w.state = LifecycleState.Alive → ∀ p, PathAdm initAdm w done p)

/-- The admission invariant of the native-watcher system: instance keys
are duplicate-free and every instance satisfies its watcher-level
invariant against its own event stream. -/
def SysAdmInv (initAdm : Nat → String → Bool) (s : Sys)
    (done : List (Nat × EmittedEvent)) : Prop :=
  s.watchers.NodupKeys ∧
    ∀ kv ∈ s.watchers.entries,
      RegWAdm (initAdm kv.1) kv.2 (eventsFor kv.1 done)

/-- Every Disposed instance of the native-watcher system has an empty
pending queue.  `close()` establishes this and every step preserves it. -/
def Sys.DisposedClean (s : Sys) : Prop :=
  ∀ kv ∈ s.watchers.entries,
    kv.2.state = LifecycleState.Disposed → kv.2.queue = JMap.empty

instance instSysDisposedCleanDecidable (s : Sys) :
    Decidable s.DisposedClean :=
  inferInstanceAs (Decidable (∀ kv ∈ s.watchers.entries,
    kv.2.state = LifecycleState.Disposed → kv.2.queue = JMap.empty))

/-- A sample file metadata record for concrete runs. -/
def sampleStat : Stats :=
  { size := 5, mtimeMs := 1, dev := 1, ino := 1, kind := FileKind.file }

/-- A second sample file metadata record (newer mtime, other size). -/
def sampleStat2 : Stats :=
  { size := 13, mtimeMs := 2, dev := 1, ino := 1, kind := FileKind.file }

/-- A freshly ready native watcher instance with no children. -/
def aliveRegW : RegW :=
  { stats := JMap.empty
    queue := JMap.empty
    state := LifecycleState.Alive
    ready := FsResult.ok () }

/-- Two freshly ready native watcher instances sharing the prototype's
debounce wrapper, before any filesystem activity. -/
def sysTwoAlive : Sys :=
  { watchers := [(0, aliveRegW), (1, aliveRegW)]
    deb := { timerActive := false, context := none } }

/-! ## Lemmas about `JMap` -/

@[simp]
theorem JMap.get_empty {α β : Type} [DecidableEq α] (a : α) :
    (JMap.empty : JMap α β).get a = none := rfl

@[simp]
theorem JMap.get_set_self {α β : Type} [DecidableEq α] (m : JMap α β)
    (a : α) (b : β) :
    (m.set a b).get a = some b := by
  induction m with
  | nil => simp [JMap.set, JMap.get]
  | cons hd tl ih =>
    obtain ⟨k, v⟩ := hd
    by_cases h : k = a <;> simp [JMap.set, JMap.get, h, ih]

theorem JMap.get_set_ne {α β : Type} [DecidableEq α] (m : JMap α β)
    (a a' : α) (b : β) (h : a ≠ a') :
    (m.set a b).get a' = m.get a' := by
  induction m with
  | nil => simp [JMap.set, JMap.get, h]
  | cons hd tl ih =>
    obtain ⟨k, v⟩ := hd
    by_cases hk : k = a
    · subst hk
      simp [JMap.set, JMap.get, h]
    · simp only [JMap.set, hk, if_false]
      by_cases hk' : k = a' <;> simp [JMap.get, hk', ih]

/-- Setting a key that is absent from the map and then deleting it restores
the original map. -/
theorem JMap.del_set_of_get_none {α β : Type} [DecidableEq α]
    (m : JMap α β) (a : α) (b : β) (h : m.get a = none) :
    (m.set a b).del a = m := by
  induction m with
  | nil => simp [JMap.set, JMap.del]
  | cons hd tl ih =>
    obtain ⟨k, v⟩ := hd
    by_cases hk : k = a
    · simp [JMap.get, hk] at h
    · simp only [JMap.get, if_neg hk] at h
      simp [JMap.set, JMap.del, hk, ih h]

theorem JMap.get_del_ne {α β : Type} [DecidableEq α] (m : JMap α β)
    (a a' : α) (h : a ≠ a') :
    (m.del a).get a' = m.get a' := by
  induction m with
  | nil => simp [JMap.del]
  | cons hd tl ih =>
    obtain ⟨k, v⟩ := hd
    by_cases hk : k = a
    · subst hk
      simp [JMap.del, JMap.get, h]
    · by_cases hk' : k = a'
      · subst hk'
        simp [JMap.del, JMap.get, hk]
      · simp [JMap.del, JMap.get, hk, hk', ih]

theorem JMap.get_mem_keys {α β : Type} [DecidableEq α] (m : JMap α β)
    (a : α) (b : β) (h : m.get a = some b) :
    a ∈ (JMap.entries m).map Prod.fst := by
  induction m with
  | nil => simp [JMap.get] at h
  | cons hd tl ih =>
    obtain ⟨k, v⟩ := hd
    by_cases hk : k = a
    · subst hk
      simp [JMap.entries]
    · simp only [JMap.get, if_neg hk] at h
      simpa [JMap.entries] using Or.inr (ih h)

theorem JMap.get_del_self {α β : Type} [DecidableEq α] (m : JMap α β)
    (a : α) (h : m.NodupKeys) :
    (m.del a).get a = none := by
  induction m with
  | nil => simp [JMap.del, JMap.get]
  | cons hd tl ih =>
    obtain ⟨k, v⟩ := hd
    simp only [JMap.NodupKeys, JMap.entries, List.map_cons, List.nodup_cons]
      at h
    by_cases hk : k = a
    · subst hk
      simp only [JMap.del, if_true, reduceIte]
      rcases hget : JMap.get tl k with _ | b
      · rfl
      · exact absurd (JMap.get_mem_keys tl k b hget) h.1
    · simp only [JMap.del, if_neg hk, JMap.get, if_neg hk]
      exact ih h.2

/-! ## C1: the pending-queue merge table -/

/-- C1: for every path and every enqueue within one debounce window the
per-path merge follows the spec table: with no pending entry the new entry
is stored as-is; pending `add` followed by `add` or `change` stays `add`
carrying the newest metadata; pending `add` followed by `remove` deletes
the pending entry (zero events for that path); pending `change` or
`remove` followed by `add` or `change` becomes `change`; pending `change`
or `remove` followed by `remove` becomes `remove`. -/
theorem c1_pending_queue_merge (q : JMap String Operation) (p : String)
    (s s₀ : Stats) (h : q.get p = none) :
    ((enqueueFileAsAdded q p s).get p
        = some { type := OpType.add, stat := s }) ∧
    ((enqueueFileAsChanged q p s).get p
        = some { type := OpType.change, stat := s }) ∧
    ((enqueueFileAsRemoved q p s).get p
        = some { type := OpType.remove, stat := s }) ∧
    ((enqueueFileAsAdded (q.set p { type := OpType.add, stat := s₀ }) p s).get p
        = some { type := OpType.add, stat := s }) ∧
    ((enqueueFileAsChanged (q.set p { type := OpType.add, stat := s₀ }) p s).get p
        = some { type := OpType.add, stat := s }) ∧
    ((enqueueFileAsRemoved (q.set p { type := OpType.add, stat := s₀ }) p s).get p
        = none) ∧
    ((enqueueFileAsAdded (q.set p { type := OpType.change, stat := s₀ }) p s).get p
        = some { type := OpType.change, stat := s }) ∧
    ((enqueueFileAsChanged (q.set p { type := OpType.change, stat := s₀ }) p s).get p
        = some { type := OpType.change, stat := s }) ∧
    ((enqueueFileAsRemoved (q.set p { type := OpType.change, stat := s₀ }) p s).get p
        = some { type := OpType.remove, stat := s }) ∧
    ((enqueueFileAsAdded (q.set p { type := OpType.remove, stat := s₀ }) p s).get p
        = some { type := OpType.change, stat := s }) ∧
    ((enqueueFileAsChanged (q.set p { type := OpType.remove, stat := s₀ }) p s).get p
        = some { type := OpType.change, stat := s }) ∧
    ((enqueueFileAsRemoved (q.set p { type := OpType.remove, stat := s₀ }) p s).get p
        = some { type := OpType.remove, stat := s }) := by
  refine ⟨?_, ?_, ?_, ?_, ?_, ?_, ?_, ?_, ?_, ?_, ?_, ?_⟩
  · simp [enqueueFileAsAdded, h]
  · simp [enqueueFileAsChanged, h]
  · simp [enqueueFileAsRemoved, h]
  · simp [enqueueFileAsAdded]
  · simp [enqueueFileAsChanged]
  · simp only [enqueueFileAsRemoved, JMap.get_set_self]
    rw [JMap.del_set_of_get_none q p _ h]
    exact h
  · simp [enqueueFileAsAdded]
  · simp [enqueueFileAsChanged]
  · simp [enqueueFileAsRemoved]
  · simp [enqueueFileAsAdded]
  · simp [enqueueFileAsChanged]
  · simp [enqueueFileAsRemoved]

/-- Witness for C1 at the empty queue: a pending `add` followed by `remove`
leaves no entry for the path. -/
theorem c1_pending_queue_merge_witness :
    (enqueueFileAsRemoved
        ((JMap.empty : JMap String Operation).set "f"
          { type := OpType.add, stat := sampleStat }) "f" sampleStat2).get "f"
      = none :=
  (c1_pending_queue_merge JMap.empty "f" sampleStat2 sampleStat rfl).2.2.2.2.2.1

/-! ## C5: the compiled `isMatch` predicate -/

theorem isMatch1Loop_iff (relPath : String)
    (includes : List (String → Bool)) :
    isMatch1Loop relPath includes = true ↔
      ∃ f ∈ includes, f relPath = true := by
  induction includes with
  | nil => simp [isMatch1Loop]
  | cons f fs ih =>
    rcases hf : f relPath with _ | _
    · simp [isMatch1Loop, hf, ih]
    · simp [isMatch1Loop, hf]

theorem isMatch2Excl_iff (relPath : String)
    (excludes : List (String → Bool)) :
    isMatch2Excl excludes relPath = true ↔
      ∃ g ∈ excludes, g relPath = true := by
  simp [isMatch2Excl, List.any_eq_true]

theorem isMatch2Loop_iff (relPath : String)
    (excludes includes : List (String → Bool)) :
    isMatch2Loop excludes relPath includes = true ↔
      ((∃ f ∈ includes, f relPath = true) ∧
        ∀ g ∈ excludes, g relPath = false) := by
  induction includes with
  | nil => simp [isMatch2Loop]
  | cons f fs ih =>
    rcases hf : f relPath with _ | _
    · simp [isMatch2Loop, hf, ih]
    · rcases hex : isMatch2Excl excludes relPath with _ | _
      · have hall : ∀ g ∈ excludes, g relPath = false := by
          intro g hg
          rcases hgr : g relPath with _ | _
          · rfl
          · exact absurd ((isMatch2Excl_iff relPath excludes).mpr
              ⟨g, hg, hgr⟩) (by simp [hex])
        simp only [isMatch2Loop, hf, hex, if_true, if_false, Bool.false_eq_true]
        simp only [true_iff, eq_self_iff_true, if_pos]
        exact ⟨⟨f, by simp, hf⟩, hall⟩
      · obtain ⟨g, hg, hgr⟩ := (isMatch2Excl_iff relPath excludes).mp hex
        have hnall : ¬∀ g' ∈ excludes, g' relPath = false := by
          intro hall
          simpa [hgr] using hall g hg
        simp [isMatch2Loop, hf, hex, ih, hnall]

/-- C5: for every path and all compiled include/exclude matchers,
`createFileMatcher` returns true iff some include pattern matches the
POSIX-normalized path and no exclude pattern matches it. -/
theorem c5_isMatch_iff (positives negatives : List (String → Bool))
    (filePath : String) :
    createFileMatcher positives negatives filePath = true ↔
      ((∃ f ∈ positives, f (normalizePathPosix filePath) = true) ∧
        ∀ g ∈ negatives, g (normalizePathPosix filePath) = false) := by
  unfold createFileMatcher
  by_cases hp : positives.length = 0
  · have hpe : positives = [] := List.length_eq_zero.mp hp
    subst hpe
    simp [alwaysFalse]
  · by_cases hn : negatives.length = 0
    · have hne : negatives = [] := List.length_eq_zero.mp hn
      subst hne
      simp [hp, isMatch1, isMatch1Loop_iff]
    · simp [hp, hn, isMatch2, isMatch2Loop_iff]

/-! ## Lemmas about `JMap.hasKey` -/

theorem JMap.hasKey_empty {α β : Type} [DecidableEq α] (a : α) :
    (JMap.empty : JMap α β).hasKey a = false := rfl

@[simp]
theorem JMap.hasKey_set_self {α β : Type} [DecidableEq α] (m : JMap α β)
    (a : α) (b : β) : (m.set a b).hasKey a = true := by
  simp [JMap.hasKey]

theorem JMap.hasKey_set_elim {α β : Type} [DecidableEq α] (m : JMap α β)
    (a p : α) (b : β) (h : (m.set a b).hasKey p = true) :
    p = a ∨ m.hasKey p = true := by
  by_cases hp : p = a
  · exact Or.inl hp
  · right
    rw [JMap.hasKey, JMap.get_set_ne m a p b (fun he => hp he.symm)] at h
    exact h

theorem JMap.get_del_imp {α β : Type} [DecidableEq α] (m : JMap α β)
    (a p : α) (b : β) (h : (m.del a).get p = some b) :
    ∃ b', m.get p = some b' := by
  induction m with
  | nil => simp [JMap.del, JMap.get] at h
  | cons hd tl ih =>
    obtain ⟨k, v⟩ := hd
    by_cases hk : k = a
    · subst hk
      simp only [JMap.del, if_true, reduceIte] at h
      by_cases hp : k = p
      · exact ⟨v, by simp [JMap.get, hp]⟩
      · refine ⟨b, ?_⟩
        simpa [JMap.get, hp] using h
    · simp only [JMap.del, if_neg hk] at h
      by_cases hp : k = p
      · exact ⟨v, by simp [JMap.get, hp]⟩
      · simp only [JMap.get, if_neg hp] at h ⊢
        exact ih h

theorem JMap.hasKey_del_imp {α β : Type} [DecidableEq α] (m : JMap α β)
    (a p : α) (h : (m.del a).hasKey p = true) : m.hasKey p = true := by
  rw [JMap.hasKey, Option.isSome_iff_exists] at h
  obtain ⟨b, hb⟩ := h
  obtain ⟨b', hb'⟩ := JMap.get_del_imp m a p b hb
  simp [JMap.hasKey, hb']

theorem JMap.get_imp_hasKey {α β : Type} [DecidableEq α] (m : JMap α β)
    (a : α) (b : β) (h : m.get a = some b) : m.hasKey a = true := by
  simp [JMap.hasKey, h]

/-! ## C2: every glob-watcher event passed the include/exclude filter -/

theorem globStep_match_inv (isM : String → Bool) (g : GlobState) (a : GlobAct)
    (hg : ∀ p, g.stats.hasKey p = true → isM p = true) :
    (∀ p, (globStep isM g a).1.stats.hasKey p = true → isM p = true) ∧
    (∀ e ∈ (globStep isM g a).2, isM e.path = true) := by
  cases a with
  | addFile fp st =>
    by_cases hguard : ¬g.stats.hasKey fp = true ∧ isM fp = true
    · by_cases hAlive : g.state = LifecycleState.Alive
      · constructor
        · intro p hp
          simp only [globStep, GlobState.addFile, if_pos hguard,
            if_pos hAlive] at hp
          rcases JMap.hasKey_set_elim g.stats fp p st hp with hpe | hpk
          · exact hpe ▸ hguard.2
          · exact hg p hpk
        · intro e he
          simp only [globStep, GlobState.addFile, if_pos hguard,
            if_pos hAlive, List.mem_singleton] at he
          rw [he]
          exact hguard.2
      · constructor
        · intro p hp
          simp only [globStep, GlobState.addFile, if_pos hguard,
            if_neg hAlive] at hp
          rcases JMap.hasKey_set_elim g.stats fp p st hp with hpe | hpk
          · exact hpe ▸ hguard.2
          · exact hg p hpk
        · intro e he
          simp only [globStep, GlobState.addFile, if_pos hguard,
            if_neg hAlive] at he
          simp at he
    · constructor
      · intro p hp
        simp only [globStep, GlobState.addFile, if_neg hguard] at hp
        exact hg p hp
      · intro e he
        simp only [globStep, GlobState.addFile, if_neg hguard] at he
        simp at he
  | removeFile fp =>
    rcases hget : g.stats.get fp with _ | st
    · constructor
      · intro p hp
        simp only [globStep, GlobState.removeFile, hget] at hp
        exact hg p hp
      · intro e he
        simp only [globStep, GlobState.removeFile, hget] at he
        simp at he
    · have hM : isM fp = true := hg fp (JMap.get_imp_hasKey _ _ _ hget)
      by_cases hAlive : g.state = LifecycleState.Alive
      · constructor
        · intro p hp
          simp only [globStep, GlobState.removeFile, hget,
            if_pos hAlive] at hp
          exact hg p (JMap.hasKey_del_imp g.stats fp p hp)
        · intro e he
          simp only [globStep, GlobState.removeFile, hget, if_pos hAlive,
            List.mem_singleton] at he
          rw [he]
          exact hM
      · constructor
        · intro p hp
          simp only [globStep, GlobState.removeFile, hget,
            if_neg hAlive] at hp
          exact hg p (JMap.hasKey_del_imp g.stats fp p hp)
        · intro e he
          simp only [globStep, GlobState.removeFile, hget,
            if_neg hAlive] at he
          simp at he
  | changeFile fp st =>
    rcases hhas : g.stats.hasKey fp with _ | _
    · constructor
      · intro p hp
        simp only [globStep, GlobState.changeFile, hhas] at hp
        simp only [Bool.false_eq_true, if_false] at hp
        exact hg p hp
      · intro e he
        simp only [globStep, GlobState.changeFile, hhas] at he
        simp only [Bool.false_eq_true, if_false] at he
        simp at he
    · have hM : isM fp = true := hg fp hhas
      by_cases hAlive : g.state = LifecycleState.Alive
      · constructor
        · intro p hp
          simp only [globStep, GlobState.changeFile, hhas, if_true,
            if_pos hAlive] at hp
          rcases JMap.hasKey_set_elim g.stats fp p st hp with hpe | hpk
          · exact hpe ▸ hM
          · exact hg p hpk
        · intro e he
          simp only [globStep, GlobState.changeFile, hhas, if_true,
            if_pos hAlive, List.mem_singleton] at he
          rw [he]
          exact hM
      · constructor
        · intro p hp
          simp only [globStep, GlobState.changeFile, hhas, if_true,
            if_neg hAlive] at hp
          rcases JMap.hasKey_set_elim g.stats fp p st hp with hpe | hpk
          · exact hpe ▸ hM
          · exact hg p hpk
        · intro e he
          simp only [globStep, GlobState.changeFile, hhas, if_true,
            if_neg hAlive] at he
          simp at he
  | setAlive =>
    by_cases hDis : g.state = LifecycleState.Disposed
    · constructor
      · intro p hp
        simp only [globStep, GlobState.setAlive, if_pos hDis] at hp
        exact hg p hp
      · intro e he
        simp only [globStep, GlobState.setAlive] at he
        simp at he
    · constructor
      · intro p hp
        simp only [globStep, GlobState.setAlive, if_neg hDis] at hp
        exact hg p hp
      · intro e he
        simp only [globStep, GlobState.setAlive] at he
        simp at he
  | closeCall =>
    by_cases hDis : g.state = LifecycleState.Disposed
    · constructor
      · intro p hp
        simp only [globStep, GlobState.close, if_pos hDis] at hp
        exact hg p hp
      · intro e he
        simp only [globStep, GlobState.close, if_pos hDis] at he
        simp at he
    · constructor
      · intro p hp
        simp only [globStep, GlobState.close, if_neg hDis] at hp
        simp [JMap.hasKey] at hp
      · intro e he
        simp only [globStep, GlobState.close, if_neg hDis] at he
        simp at he

theorem globRun_match_inv (isM : String → Bool) (steps : List GlobAct) :
    ∀ g : GlobState, (∀ p, g.stats.hasKey p = true → isM p = true) →
      ∀ e ∈ (globRun isM g steps).2, isM e.path = true := by
  induction steps with
  | nil => intro g _ e he; simp [globRun] at he
  | cons a rest ih =>
    intro g hg e he
    simp only [globRun, List.mem_append] at he
    rcases he with he | he
    · exact (globStep_match_inv isM g a hg).2 e he
    · exact ih _ (globStep_match_inv isM g a hg).1 e he

/-- C2: every `add`, `remove`, or `change` event emitted by the
`GlobWatcher` has a path satisfying the compiled `isMatch` predicate: paths
enter `stats` only after passing the filter, and `remove`/`change` are only
emitted for paths currently in `stats`. -/
theorem c2_glob_events_satisfy_isMatch (isM : String → Bool)
    (steps : List GlobAct) (e : EmittedEvent)
    (he : e ∈ (globRun isM GlobState.initial steps).2) :
    isM e.path = true := by
  refine globRun_match_inv isM steps GlobState.initial ?_ e he
  intro p hp
  simp [GlobState.initial, JMap.hasKey] at hp

/-- Witness for C2: a concrete run emitting an `add` whose path satisfies
the predicate. -/
theorem c2_glob_events_satisfy_isMatch_witness :
    (fun s : String => decide (s.length = 1))
        ({ type := OpType.add, path := "f", stat := sampleStat }
          : EmittedEvent).path = true :=
  c2_glob_events_satisfy_isMatch (fun s => decide (s.length = 1))
    [GlobAct.setAlive, GlobAct.addFile "f" sampleStat] _ (by decide)

/-! ## C10: no includes means no admissions and no events -/

theorem globRun_all_false (isM : String → Bool) (hM : ∀ p, isM p = false)
    (steps : List GlobAct) :
    ∀ g : GlobState, g.stats = JMap.empty →
      (globRun isM g steps).1.stats = JMap.empty ∧
        (globRun isM g steps).2 = [] := by
  induction steps with
  | nil => intro g hg; simp [globRun, hg]
  | cons a rest ih =>
    intro g hg
    have hstep : (globStep isM g a).1.stats = JMap.empty ∧
        (globStep isM g a).2 = [] := by
      cases a with
      | addFile fp st =>
        simp [globStep, GlobState.addFile, hM fp, hg]
      | removeFile fp =>
        simp [globStep, GlobState.removeFile, hg, JMap.get_empty, JMap.get]
      | changeFile fp st =>
        simp [globStep, GlobState.changeFile, hg, JMap.hasKey, JMap.get]
      | setAlive =>
        simp [globStep, GlobState.setAlive, hg]
        rcases hst : g.state with _ | _ | _ <;> simp [hg]
      | closeCall =>
        simp [globStep, GlobState.close, hg]
        rcases hst : g.state with _ | _ | _ <;> simp [hg]
    have hrest := ih (globStep isM g a).1 hstep.1
    simp only [globRun]
    exact ⟨hrest.1, by rw [hstep.2, hrest.2]; rfl⟩

/-- C10: with an empty include list the compiled matcher is `alwaysFalse`,
so a `GlobWatcher` with no include patterns admits no file into `stats` and
never emits an event. -/
theorem c10_empty_includes_no_events (negatives : List (String → Bool))
    (filePath : String) (steps : List GlobAct) :
    createFileMatcher [] negatives filePath = false ∧
    (globRun (createFileMatcher [] negatives) GlobState.initial steps).1.stats
        = JMap.empty ∧
    (globRun (createFileMatcher [] negatives) GlobState.initial steps).2
        = [] := by
  have hM : ∀ p, createFileMatcher [] negatives p = false := by
    intro p
    simp [createFileMatcher, alwaysFalse]
  refine ⟨hM filePath, ?_, ?_⟩
  · exact (globRun_all_false _ hM steps GlobState.initial rfl).1
  · exact (globRun_all_false _ hM steps GlobState.initial rfl).2

/-! ## C3: `close()` idempotence and the promise it returns -/

/-- C3 (amended): for every watcher, `close()` is idempotent — a second
`close()` is a state no-op returning the same outcome — and the promise
returned by `close()` is the watcher's `ready` promise: it resolves when
`ready` resolved, and after a rejected `ready` it rejects with the
initialization error. -/
theorem c3_close_idempotent_returns_ready :
    (∀ (s : Sys) (wid : Nat),
        Sys.closeW (Sys.closeW s wid).1 wid = Sys.closeW s wid) ∧
    (∀ p : PollState,
        PollState.close (PollState.close p).1 = PollState.close p) ∧
    (∀ g : GlobState,
        GlobState.close (GlobState.close g).1 = GlobState.close g) ∧
    (∀ (s : Sys) (wid : Nat) (w : RegW),
        (Sys.closeW { watchers := s.watchers.set wid w, deb := s.deb }
            wid).2 = w.ready) ∧
    (∀ p : PollState, (PollState.close p).2 = p.ready) ∧
    (∀ g : GlobState, (GlobState.close g).2 = g.ready) := by
  refine ⟨?_, ?_, ?_, ?_, ?_, ?_⟩
  · intro s wid
    rcases hget : s.watchers.get wid with _ | w
    · simp [Sys.closeW, hget]
    · by_cases hDis : w.state = LifecycleState.Disposed
      · simp [Sys.closeW, hget, hDis]
      · simp [Sys.closeW, hget, hDis, JMap.get_set_self]
  · intro p
    by_cases hDis : p.state = LifecycleState.Disposed
    · simp [PollState.close, hDis]
    · simp [PollState.close, hDis]
  · intro g
    by_cases hDis : g.state = LifecycleState.Disposed
    · simp [GlobState.close, hDis]
    · simp [GlobState.close, hDis]
  · intro s wid w
    by_cases hDis : w.state = LifecycleState.Disposed
    · simp [Sys.closeW, JMap.get_set_self, hDis]
    · simp [Sys.closeW, JMap.get_set_self, hDis]
  · intro p
    by_cases hDis : p.state = LifecycleState.Disposed
    · simp [PollState.close, hDis]
    · simp [PollState.close, hDis]
  · intro g
    by_cases hDis : g.state = LifecycleState.Disposed
    · simp [GlobState.close, hDis]
    · simp [GlobState.close, hDis]

/-- C3 counterexample: after `ready` has rejected (initialization failure
on a missing directory), the promise returned by `close()` is the rejected
`ready` promise, so it does not resolve — for the polling watcher and for
the native watcher alike. -/
theorem c3_close_counterexample :
    (PollState.close (mkPollingDirectoryWatcher
        { readDirResult := FsResult.error enoent, statOf := fun _ => none }
        "/missing")).2 ≠ FsResult.ok () ∧
    (Sys.closeW
        { watchers := [(0, mkRegularDirectoryWatcher
            { readDirResult := FsResult.error enoent,
              statOf := fun _ => none } "/missing")]
          deb := { timerActive := false, context := none } } 0).2
      ≠ FsResult.ok () := by
  constructor
  · decide
  · decide

/-! ## C8: a missing directory rejects `ready` with `ENOENT` -/

/-- C8: for a path that does not exist (the directory listing fails with
`ENOENT`), constructing either directory watcher yields a `ready` that
rejects with `ENOENT` after the watcher has internally transitioned to
Disposed via `close()`. -/
theorem c8_nonexistent_path_rejects_enoent (dirPath : String)
    (statOf : String → Option Stats) :
    (mkRegularDirectoryWatcher
        { readDirResult := FsResult.error enoent, statOf := statOf }
        dirPath).ready = FsResult.error enoent ∧
    (mkRegularDirectoryWatcher
        { readDirResult := FsResult.error enoent, statOf := statOf }
        dirPath).state = LifecycleState.Disposed ∧
    (mkPollingDirectoryWatcher
        { readDirResult := FsResult.error enoent, statOf := statOf }
        dirPath).ready = FsResult.error enoent ∧
    (mkPollingDirectoryWatcher
        { readDirResult := FsResult.error enoent, statOf := statOf }
        dirPath).state = LifecycleState.Disposed :=
  ⟨rfl, rfl, rfl, rfl⟩

/-! ## C4: no events after `close()` completes -/

theorem JMap.get_mem {α β : Type} [DecidableEq α] (m : JMap α β) (a : α)
    (b : β) (h : m.get a = some b) : (a, b) ∈ JMap.entries m := by
  induction m with
  | nil => simp [JMap.get] at h
  | cons hd tl ih =>
    obtain ⟨k, v⟩ := hd
    by_cases hk : k = a
    · subst hk
      simp only [JMap.get, if_true, reduceIte, Option.some.injEq] at h
      subst h
      simp [JMap.entries]
    · simp only [JMap.get, if_neg hk] at h
      simpa [JMap.entries] using Or.inr (ih h)

theorem JMap.mem_set_elim {α β : Type} [DecidableEq α] (m : JMap α β)
    (a : α) (b : β) (kv : α × β) (h : kv ∈ JMap.entries (m.set a b)) :
    kv = (a, b) ∨ kv ∈ JMap.entries m := by
  induction m with
  | nil => simpa [JMap.set, JMap.entries] using h
  | cons hd tl ih =>
    obtain ⟨k, v⟩ := hd
    by_cases hk : k = a
    · subst hk
      simp only [JMap.set, if_true, reduceIte, JMap.entries,
        List.mem_cons] at h ⊢
      rcases h with h | h
      · exact Or.inl h
      · exact Or.inr (Or.inr h)
    · simp only [JMap.set, if_neg hk, JMap.entries, List.mem_cons] at h ⊢
      rcases h with h | h
      · exact Or.inr (Or.inl h)
      · rcases ih h with h' | h'
        · exact Or.inl h'
        · exact Or.inr (Or.inr h')

theorem onChangeResume_disposed_eq (w : RegW) (fp : String)
    (c : Option Stats) (h : w.state = LifecycleState.Disposed) :
    onChangeResume w fp c = (w, false) := by
  simp [onChangeResume, h]

theorem onChangeResume_state (w : RegW) (fp : String) (c : Option Stats) :
    (onChangeResume w fp c).1.state = w.state := by
  unfold onChangeResume
  by_cases hDis : w.state = LifecycleState.Disposed
  · simp [hDis]
  · rcases c with _ | cs
    · rcases hprev : w.stats.get fp with _ | p <;>
        by_cases hAlive : w.state = LifecycleState.Alive <;>
        simp [hDis, hprev, hAlive]
    · rcases hprev : w.stats.get fp with _ | p <;>
        by_cases hAlive : w.state = LifecycleState.Alive <;>
        by_cases hdir : cs.isDirectory = true <;>
        simp [hDis, hprev, hAlive, hdir]

theorem sys_closeW_down (s : Sys) (wid : Nat) (hclean : s.DisposedClean) :
    (Sys.closeW s wid).1.DisposedClean ∧
    (∀ w, (Sys.closeW s wid).1.watchers.get wid = some w →
      w.state = LifecycleState.Disposed) := by
  rcases hget : s.watchers.get wid with _ | w
  · have h1 : Sys.closeW s wid = (s, FsResult.ok ()) := by
      simp [Sys.closeW, hget]
    rw [h1]
    refine ⟨hclean, ?_⟩
    intro w hw
    rw [hget] at hw
    exact Option.noConfusion hw
  · by_cases hDis : w.state = LifecycleState.Disposed
    · have h1 : Sys.closeW s wid = (s, w.ready) := by
        simp [Sys.closeW, hget, hDis]
      rw [h1]
      refine ⟨hclean, ?_⟩
      intro w' hw'
      rw [hget] at hw'
      have hww : w = w' := by injection hw'
      rw [← hww]
      exact hDis
    · constructor
      · intro kv hkv
        simp only [Sys.closeW, hget, if_neg hDis] at hkv
        rcases JMap.mem_set_elim _ _ _ kv hkv with hkv' | hkv'
        · intro _
          rw [hkv']
        · exact hclean kv hkv'
      · intro w' hw'
        simp only [Sys.closeW, hget, if_neg hDis, JMap.get_set_self,
          Option.some.injEq] at hw'
        rw [← hw']

theorem sys_step_down (s : Sys) (wid : Nat) (a : Act)
    (hclean : s.DisposedClean)
    (hdown : ∀ w, s.watchers.get wid = some w →
      w.state = LifecycleState.Disposed) :
    (s.step a).1.DisposedClean ∧
    (∀ w, (s.step a).1.watchers.get wid = some w →
      w.state = LifecycleState.Disposed) ∧
    (∀ e ∈ (s.step a).2, e.1 ≠ wid) := by
  cases a with
  | observe wid' fp c =>
    rcases hget : s.watchers.get wid' with _ | w
    · simp only [Sys.step, hget]
      exact ⟨hclean, hdown, by simp⟩
    · simp only [Sys.step, hget]
      refine ⟨?_, ?_, by simp⟩
      · intro kv hkv
        rcases JMap.mem_set_elim _ _ _ kv hkv with hkv' | hkv'
        · intro hkvDis
          rw [hkv'] at hkvDis ⊢
          simp only at hkvDis ⊢
          have hwDis : w.state = LifecycleState.Disposed := by
            rw [← onChangeResume_state w fp c]
            exact hkvDis
          rw [onChangeResume_disposed_eq w fp c hwDis]
          exact hclean (wid', w) (JMap.get_mem _ _ _ hget) hwDis
        · exact hclean kv hkv'
      · intro w' hw'
        by_cases heq : wid' = wid
        · subst heq
          rw [JMap.get_set_self, Option.some.injEq] at hw'
          rw [← hw', onChangeResume_state]
          exact hdown w hget
        · rw [JMap.get_set_ne _ _ _ _ heq] at hw'
          exact hdown w' hw'
  | fire =>
    by_cases hact : s.deb.timerActive = true
    · rcases hctx : s.deb.context with _ | wid'
      · simp only [Sys.step, hact, hctx, if_true, reduceIte]
        exact ⟨hclean, hdown, by simp⟩
      · rcases hget : s.watchers.get wid' with _ | w
        · simp only [Sys.step, hact, hctx, hget, if_true, reduceIte]
          exact ⟨hclean, hdown, by simp⟩
        · simp only [Sys.step, hact, hctx, hget, if_true, reduceIte]
          refine ⟨?_, ?_, ?_⟩
          · intro kv hkv
            rcases JMap.mem_set_elim _ _ _ kv hkv with hkv' | hkv'
            · intro _
              rw [hkv']
              simp [consumeQueueRaw]
            · exact hclean kv hkv'
          · intro w' hw'
            by_cases heq : wid' = wid
            · subst heq
              rw [JMap.get_set_self, Option.some.injEq] at hw'
              rw [← hw']
              simp only [consumeQueueRaw]
              exact hdown w hget
            · rw [JMap.get_set_ne _ _ _ _ heq] at hw'
              exact hdown w' hw'
          · intro e he
            by_cases heq : wid' = wid
            · subst heq
              have hqueue : w.queue = JMap.empty :=
                hclean (wid', w) (JMap.get_mem _ _ _ hget) (hdown w hget)
              simp [consumeQueueRaw, hqueue, JMap.entries, JMap.empty] at he
            · simp only [List.mem_map] at he
              obtain ⟨ev, -, hev⟩ := he
              rw [← hev]
              exact heq
    · simp only [Sys.step, hact]
      simp only [Bool.false_eq_true, if_false, reduceIte]
      exact ⟨hclean, hdown, by simp⟩
  | closeCall wid'' =>
    simp only [Sys.step]
    have h := sys_closeW_down s wid'' hclean
    refine ⟨h.1, ?_, by simp⟩
    by_cases heq : wid'' = wid
    · subst heq
      exact h.2
    · intro w' hw'
      rcases hget : s.watchers.get wid'' with _ | w
      · simp only [Sys.closeW, hget] at hw'
        exact hdown w' hw'
      · by_cases hDis : w.state = LifecycleState.Disposed
        · simp only [Sys.closeW, hget, if_pos hDis] at hw'
          exact hdown w' hw'
        · simp only [Sys.closeW, hget, if_neg hDis] at hw'
          rw [JMap.get_set_ne _ _ _ _ heq] at hw'
          exact hdown w' hw'

theorem sys_run_down (s : Sys) (wid : Nat) (acts : List Act)
    (hclean : s.DisposedClean)
    (hdown : ∀ w, s.watchers.get wid = some w →
      w.state = LifecycleState.Disposed) :
    ∀ e ∈ (s.run acts).2, e.1 ≠ wid := by
  induction acts generalizing s with
  | nil => intro e he; simp [Sys.run] at he
  | cons a rest ih =>
    intro e he
    have hstep := sys_step_down s wid a hclean hdown
    simp only [Sys.run, List.mem_append] at he
    rcases he with he | he
    · exact hstep.2.2 e he
    · exact ih (s.step a).1 hstep.1 hstep.2.1 e he

theorem pollStep_disposed (w : PollState) (a : PollAct)
    (h : w.state = LifecycleState.Disposed) :
    (pollStep w a).1.state = LifecycleState.Disposed ∧
      (pollStep w a).2 = [] := by
  cases a with
  | childChange fp st => simp [pollStep, onChildChange, h]
  | startChildResume fp st =>
    rcases st with _ | s <;> simp [pollStep, startWatchingChildResume, h]
  | stopChild fp =>
    rcases hget : w.stats.get fp with _ | st
    · simp [pollStep, stopWatchingChild, hget, h]
    · simp only [pollStep, stopWatchingChild, hget]
      rw [h]
      simp
    | closeCall => simp [pollStep, PollState.close, h]

theorem pollRun_disposed (acts : List PollAct) :
    ∀ w : PollState, w.state = LifecycleState.Disposed →
      (pollRun w acts).2 = [] := by
  induction acts with
  | nil => intro w _; rfl
  | cons a rest ih =>
    intro w h
    have hstep := pollStep_disposed w a h
    simp only [pollRun]
    rw [hstep.2, ih (pollStep w a).1 hstep.1]
    rfl

theorem globStep_disposed (isM : String → Bool) (g : GlobState) (a : GlobAct)
    (h : g.state = LifecycleState.Disposed) :
    (globStep isM g a).1.state = LifecycleState.Disposed ∧
      (globStep isM g a).2 = [] := by
  cases a with
  | addFile fp st =>
    rcases hhas : g.stats.hasKey fp with _ | _ <;>
      rcases hM : isM fp with _ | _ <;>
      simp [globStep, GlobState.addFile, hhas, hM, h]
  | removeFile fp =>
    rcases hget : g.stats.get fp with _ | st
    · simp [globStep, GlobState.removeFile, hget, h]
    · simp only [globStep, GlobState.removeFile, hget]
      rw [h]
      simp
  | changeFile fp st =>
    rcases hhas : g.stats.hasKey fp with _ | _
    · simp [globStep, GlobState.changeFile, hhas, h]
    · simp only [globStep, GlobState.changeFile, hhas]
      rw [h]
      simp
  | setAlive => simp [globStep, GlobState.setAlive, h]
  | closeCall => simp [globStep, GlobState.close, h]

theorem globRun_disposed (isM : String → Bool) (acts : List GlobAct) :
    ∀ g : GlobState, g.state = LifecycleState.Disposed →
      (globRun isM g acts).2 = [] := by
  induction acts with
  | nil => intro g _; rfl
  | cons a rest ih =>
    intro g h
    have hstep := globStep_disposed isM g a h
    simp only [globRun]
    rw [hstep.2, ih (globStep isM g a).1 hstep.1]
    rfl

/-- C4: no `add`, `remove`, or `change` event is emitted after `close()`
completes: for the native system, no later step emits an event tagged with
the closed instance (close clears its pending queue and cancels the
debounce timer, and every handler resumption re-checks the state); for the
polling and glob watchers, no event at all is emitted after `close()`. -/
theorem c4_no_events_after_close :
    (∀ (s : Sys) (wid : Nat) (acts : List Act) (e : Nat × EmittedEvent),
        s.DisposedClean →
        e ∈ (Sys.run (Sys.closeW s wid).1 acts).2 → e.1 ≠ wid) ∧
    (∀ (p : PollState) (acts : List PollAct),
        (pollRun (PollState.close p).1 acts).2 = []) ∧
    (∀ (isM : String → Bool) (g : GlobState) (acts : List GlobAct),
        (globRun isM (GlobState.close g).1 acts).2 = []) := by
  refine ⟨?_, ?_, ?_⟩
  · intro s wid acts e hclean he
    have h := sys_closeW_down s wid hclean
    exact sys_run_down _ wid acts h.1 h.2 e he
  · intro p acts
    refine pollRun_disposed acts _ ?_
    by_cases hDis : p.state = LifecycleState.Disposed
    · simp [PollState.close, hDis]
    · simp [PollState.close, hDis]
  · intro isM g acts
    refine globRun_disposed isM acts _ ?_
    by_cases hDis : g.state = LifecycleState.Disposed
    · simp [GlobState.close, hDis]
    · simp [GlobState.close, hDis]

/-- Witness for C4: in a two-instance system, closing instance 0 still lets
instance 1 emit (here an `add` flushed by the timer), and that event's tag
differs from the closed instance. -/
theorem c4_no_events_after_close_witness :
    ((1, { type := OpType.add, path := "f", stat := sampleStat })
        : Nat × EmittedEvent).1 ≠ 0 :=
  c4_no_events_after_close.1 sysTwoAlive 0
    [Act.observe 1 "f" (some sampleStat), Act.fire] _
    (by decide) (by decide)

/-! ## C6: brace expansion -/

theorem indexOfChar_eq_none (l : List Char) (c : Char)
    (h : ∀ x ∈ l, x ≠ c) : indexOfChar l c = none := by
  induction l with
  | nil => rfl
  | cons hd tl ih =>
    have hhd : decide (hd = c) = false := decide_eq_false (h hd (by simp))
    rw [indexOfChar] at ih ⊢
    rw [List.findIdx?_cons]
    simp only [hhd, Bool.false_eq_true, if_false]
    rw [List.findIdx?_succ]
    rw [ih (fun x hx => h x (by simp [hx]))]
    rfl

theorem indexOfChar_append_first (pre rest : List Char) (c : Char)
    (hpre : ∀ x ∈ pre, x ≠ c) :
    indexOfChar (pre ++ c :: rest) c = some pre.length := by
  induction pre with
  | nil =>
    simp only [List.nil_append, indexOfChar, List.findIdx?_cons]
    simp
  | cons hd tl ih =>
    have hhd : decide (hd = c) = false :=
      decide_eq_false (hpre hd (by simp))
    simp only [List.cons_append, indexOfChar, List.findIdx?_cons, hhd,
      Bool.false_eq_true, if_false, List.findIdx?_succ]
    rw [indexOfChar] at ih
    rw [ih (fun x hx => hpre x (by simp [hx]))]
    simp [List.length_cons]

theorem takeWhile_backslash_nil (l : List Char)
    (h : ∀ x ∈ l, x ≠ backslashChar) :
    l.takeWhile (fun c => c = backslashChar) = [] := by
  cases l with
  | nil => rfl
  | cons hd tl =>
    rw [List.takeWhile_cons]
    simp [h hd (by simp)]

theorem isEscaped_append_false (pre rest : List Char)
    (h : ∀ x ∈ pre, x ≠ backslashChar) :
    isEscaped (pre ++ rest) pre.length = false := by
  unfold isEscaped
  rw [List.take_left]
  rw [takeWhile_backslash_nil pre.reverse
    (fun x hx => h x (List.mem_reverse.mp hx))]
  simp

theorem mem_intersperse_elim {α : Type} (sep : α) (l : List α) (x : α)
    (h : x ∈ l.intersperse sep) : x = sep ∨ x ∈ l := by
  induction l with
  | nil => simp [List.intersperse] at h
  | cons hd tl ih =>
    cases tl with
    | nil =>
      simp only [List.intersperse] at h
      simp only [List.mem_singleton] at h
      right
      simp [h]
    | cons hd2 tl2 =>
      simp only [List.intersperse] at h ih
      rcases List.mem_cons.mp h with h1 | h1
      · right
        simp [h1]
      · rcases List.mem_cons.mp h1 with h2 | h2
        · exact Or.inl h2
        · rcases ih h2 with h3 | h3
          · exact Or.inl h3
          · right
            simp [List.mem_cons, h3]

theorem mem_of_mem_intercalate {α : Type} (sep : List α)
    (ls : List (List α)) (x : α) (h : x ∈ sep.intercalate ls) :
    x ∈ sep ∨ ∃ a ∈ ls, x ∈ a := by
  unfold List.intercalate at h
  rw [List.mem_flatten] at h
  obtain ⟨l, hl, hx⟩ := h
  rcases mem_intersperse_elim sep ls l hl with h1 | h1
  · left
    rw [← h1]
    exact hx
  · right
    exact ⟨l, h1, hx⟩

theorem mapM_option_eq_map {α β : Type} (f : α → Option β) (g : α → β)
    (l : List α) (h : ∀ a ∈ l, f a = some (g a)) :
    l.mapM f = some (l.map g) := by
  induction l with
  | nil => rfl
  | cons hd tl ih =>
    rw [List.mapM_cons, h hd (by simp),
      ih (fun a ha => h a (by simp [ha]))]
    rfl

theorem flatten_map_singleton {α β : Type} (g : α → β) (l : List α) :
    (l.map (fun a => [g a])).flatten = l.map g := by
  induction l with
  | nil => rfl
  | cons hd tl ih => simp [ih]

/-- C6 counterexample: on the nested pattern `{a,{b,c}}` the expansion
pairs the first opening brace with the first closing brace — which closes
the inner group — producing `a}`, `b` and `c}` rather than the full set of
correctly-formed combinations `a`, `b`, `c`. -/
theorem c6_brace_expansion_counterexample :
    divideSelectionInGlob 9
        [lbrace, 'a', ',', lbrace, 'b', ',', 'c', rbrace, rbrace]
      = some [['a', rbrace], ['b'], ['c', rbrace]] ∧
    ['a', rbrace] ∉ [['a'], ['b'], ['c']] := by
  constructor
  · decide
  · decide

/-- C6 (amended): a single top-level `{a,b,c}` group whose surroundings are
brace-free (and whose alternatives are free of braces, commas and
backslashes) is expanded into one pattern per alternative before
compilation, and a pattern whose first `\x7b` or first `\x7d` is escaped is
passed through literally (three cases: the first `\x7b` is escaped; the
first `\x7b` is unescaped but the first `\x7d` is escaped; there is no
`\x7b` at all); nested braces, however, are **not** expanded into the full
set of combinations (the first `\x7d` is used even when it closes an inner
group). -/
theorem c6_amended_brace_expansion :
    (∀ (pre suf : List Char) (alts : List (List Char)),
        (∀ c ∈ pre, c ≠ lbrace ∧ c ≠ rbrace ∧ c ≠ backslashChar) →
        (∀ c ∈ suf, c ≠ lbrace) →
        (∀ a ∈ alts, ∀ c ∈ a,
          c ≠ lbrace ∧ c ≠ rbrace ∧ c ≠ ',' ∧ c ≠ backslashChar) →
        alts ≠ [] →
        divideSelectionInGlob 2
            (pre ++ [lbrace] ++ [','].intercalate alts ++ [rbrace] ++ suf)
          = some (alts.map (fun a => pre ++ a ++ suf))) ∧
    (∀ (pattern : List Char) (left fuel : Nat),
        indexOfChar pattern lbrace = some left →
        isEscaped pattern left = true →
        divideSelectionInGlob (fuel + 1) pattern = some [pattern]) ∧
    (∀ (pattern : List Char) (left right fuel : Nat),
        indexOfChar pattern lbrace = some left →
        isEscaped pattern left = false →
        indexOfChar pattern rbrace = some right →
        isEscaped pattern right = true →
        divideSelectionInGlob (fuel + 1) pattern = some [pattern]) ∧
    (∀ (pattern : List Char) (fuel : Nat),
        indexOfChar pattern lbrace = none →
        divideSelectionInGlob (fuel + 1) pattern = some [pattern]) := by
  refine ⟨?_, ?_, ?_, ?_⟩
  · intro pre suf alts hpre hsuf halts hne
    have hlb2 : lbrace ≠ rbrace := by decide
    have hlb3 : lbrace ≠ backslashChar := by decide
    -- the pattern, re-associated around the two braces
    have hpat1 : pre ++ [lbrace] ++ [','].intercalate alts ++ [rbrace] ++ suf
        = pre ++ lbrace :: ([','].intercalate alts ++ [rbrace] ++ suf) := by
      simp
    have hpat2 : pre ++ [lbrace] ++ [','].intercalate alts ++ [rbrace] ++ suf
        = (pre ++ [lbrace] ++ [','].intercalate alts) ++ rbrace :: suf := by
      simp
    have hmem_inter : ∀ x ∈ [','].intercalate alts,
        x ≠ lbrace ∧ x ≠ rbrace ∧ x ≠ backslashChar := by
      intro x hx
      rcases mem_of_mem_intercalate [','] alts x hx with h1 | ⟨a, ha, hxa⟩
      · simp only [List.mem_singleton] at h1
        subst h1
        refine ⟨by decide, by decide, by decide⟩
      · obtain ⟨h1, h2, -, h4⟩ := halts a ha x hxa
        exact ⟨h1, h2, h4⟩
    -- position of the first opening brace
    have hidx1 : indexOfChar
        (pre ++ [lbrace] ++ [','].intercalate alts ++ [rbrace] ++ suf) lbrace
        = some pre.length := by
      rw [hpat1]
      exact indexOfChar_append_first pre _ lbrace
        (fun x hx => (hpre x hx).1)
    -- the first opening brace is not escaped
    have hesc1 : isEscaped
        (pre ++ [lbrace] ++ [','].intercalate alts ++ [rbrace] ++ suf)
        pre.length = false := by
      rw [hpat1]
      exact isEscaped_append_false pre _ (fun x hx => (hpre x hx).2.2)
    -- position of the first closing brace
    have hidx2 : indexOfChar
        (pre ++ [lbrace] ++ [','].intercalate alts ++ [rbrace] ++ suf) rbrace
        = some (pre ++ [lbrace] ++ [','].intercalate alts).length := by
      rw [hpat2]
      refine indexOfChar_append_first _ _ rbrace ?_
      intro x hx
      simp only [List.append_assoc, List.mem_append, List.mem_singleton]
        at hx
      rcases hx with hx | hx | hx
      · exact (hpre x hx).2.1
      · rw [hx]
        exact hlb2
      · exact (hmem_inter x hx).2.1
    -- the first closing brace is not escaped
    have hesc2 : isEscaped
        (pre ++ [lbrace] ++ [','].intercalate alts ++ [rbrace] ++ suf)
        (pre ++ [lbrace] ++ [','].intercalate alts).length = false := by
      rw [hpat2]
      refine isEscaped_append_false _ _ ?_
      intro x hx
      simp only [List.append_assoc, List.mem_append, List.mem_singleton]
        at hx
      rcases hx with hx | hx | hx
      · exact (hpre x hx).2.2
      · rw [hx]
        exact hlb3
      · exact (hmem_inter x hx).2.2
    -- the slice between the braces is the joined alternatives
    have hslice : (((pre ++ [lbrace] ++ [','].intercalate alts ++ [rbrace]
          ++ suf).take (pre ++ [lbrace] ++ [','].intercalate alts).length)
          ).drop (pre.length + 1)
        = [','].intercalate alts := by
      rw [hpat2, List.take_left]
      have hassoc : pre ++ [lbrace] ++ [','].intercalate alts
          = (pre ++ [lbrace]) ++ [','].intercalate alts := by
        simp
      rw [hassoc]
      exact List.drop_left' (by rw [List.length_append]; rfl)
    -- the parts are exactly the alternatives
    have hparts : ([','].intercalate alts).splitOn ',' = alts := by
      refine List.splitOn_intercalate alts ',' ?_ hne
      intro a ha hc
      exact absurd rfl (halts a ha ',' hc).2.2.1
    -- prefix and suffix of each recursive pattern
    have htake : (pre ++ [lbrace] ++ [','].intercalate alts ++ [rbrace]
          ++ suf).take pre.length = pre := by
      rw [hpat1]
      exact List.take_left' rfl
    have hdrop : (pre ++ [lbrace] ++ [','].intercalate alts ++ [rbrace]
          ++ suf).drop ((pre ++ [lbrace] ++ [','].intercalate alts).length
            + 1) = suf := by
      rw [hpat2]
      have hassoc : (pre ++ [lbrace] ++ [','].intercalate alts)
            ++ rbrace :: suf
          = ((pre ++ [lbrace] ++ [','].intercalate alts) ++ [rbrace])
            ++ suf := by
        simp
      rw [hassoc]
      exact List.drop_left' (by rw [List.length_append]; rfl)
    -- each recursive call keeps its pattern whole
    have hrec : ∀ a ∈ alts,
        divideSelectionInGlob 1 (pre ++ a ++ suf)
          = some [pre ++ a ++ suf] := by
      intro a ha
      have hnone : indexOfChar (pre ++ a ++ suf) lbrace = none := by
        refine indexOfChar_eq_none _ _ ?_
        intro x hx
        simp only [List.append_assoc, List.mem_append] at hx
        rcases hx with hx | hx | hx
        · exact (hpre x hx).1
        · exact (halts a ha x hx).1
        · exact hsuf x hx
      rw [divideSelectionInGlob, hnone]
    rw [divideSelectionInGlob]
    simp only [hidx1, hesc1, hidx2, hesc2, Bool.false_eq_true, if_false]
    rw [hslice, hparts]
    rw [htake, hdrop]
    rw [mapM_option_eq_map _ (fun a => [pre ++ a ++ suf]) alts hrec]
    simp [flatten_map_singleton]
  · intro pattern left fuel hidx hesc
    simp only [divideSelectionInGlob, hidx, hesc, if_true]
  · intro pattern left right fuel hidx1 hesc1 hidx2 hesc2
    simp only [divideSelectionInGlob, hidx1, hesc1, Bool.false_eq_true,
      if_false, hidx2, hesc2, if_true]
  · intro pattern fuel hidx
    simp only [divideSelectionInGlob, hidx]

/-- Witness for C6 (amended): `x{a,b}y` expands to `xay` and `xby`. -/
theorem c6_amended_brace_expansion_witness :
    divideSelectionInGlob 2
        (['x'] ++ [lbrace] ++ [','].intercalate [['a'], ['b']] ++ [rbrace]
          ++ ['y'])
      = some ([['a'], ['b']].map (fun a => ['x'] ++ a ++ ['y'])) :=
  c6_amended_brace_expansion.1 ['x'] ['y'] [['a'], ['b']]
    (by decide) (by decide) (by decide) (by decide)

/-! ## C9: the debounce wrapper lives on the prototype -/

/-- C9: the debounced `_consumeQueue` wrapper is installed on
`RegularDirectoryWatcher.prototype`, so its timer and context are shared by
all instances.  Failing input: instance 0 observes an added file (enqueues
an `add` and schedules the shared flush), then instance 1 is closed before
the debounce interval elapses.  `close()` on instance 1 clears the shared
timer, so instance 0 — still Alive, with the `add` still in its queue —
never gets its flush: the timer can no longer fire and no event is
emitted, whereas without the intervening `close()` the flush emits the
`add`. -/
theorem c9_shared_debounce_close_cancels_other_flush :
    (Sys.run sysTwoAlive [Act.observe 0 "f" (some sampleStat)]).1.deb
        = { timerActive := true, context := some 0 } ∧
    (Sys.run sysTwoAlive
        [Act.observe 0 "f" (some sampleStat),
          Act.closeCall 1]).1.deb.timerActive = false ∧
    (Sys.run sysTwoAlive
        [Act.observe 0 "f" (some sampleStat),
          Act.closeCall 1]).1.watchers.get 0
      = some { stats := [("f", sampleStat)]
               queue := [("f", { type := OpType.add, stat := sampleStat })]
               state := LifecycleState.Alive
               ready := FsResult.ok () } ∧
    (Sys.run sysTwoAlive
        [Act.observe 0 "f" (some sampleStat), Act.closeCall 1,
          Act.fire]).2 = [] ∧
    (Sys.run sysTwoAlive
        [Act.observe 0 "f" (some sampleStat), Act.fire]).2
      = [(0, { type := OpType.add, path := "f", stat := sampleStat })] := by
  refine ⟨?_, ?_, ?_, ?_, ?_⟩ <;> decide

/-! ## C7: admission discipline of emitted `remove`/`change` events -/

theorem JMap.nodupKeys_empty {α β : Type} [DecidableEq α] :
    (JMap.empty : JMap α β).NodupKeys := by
  simp [JMap.NodupKeys, JMap.entries, JMap.empty]

theorem JMap.mem_keys_set_elim {α β : Type} [DecidableEq α] (m : JMap α β)
    (a : α) (b : β) (x : α)
    (h : x ∈ (JMap.entries (m.set a b)).map Prod.fst) :
    x = a ∨ x ∈ (JMap.entries m).map Prod.fst := by
  rw [List.mem_map] at h
  obtain ⟨kv, hkv, hx⟩ := h
  rcases JMap.mem_set_elim m a b kv hkv with h1 | h1
  · left
    rw [← hx, h1]
  · right
    exact List.mem_map.mpr ⟨kv, h1, hx⟩

theorem JMap.nodupKeys_set {α β : Type} [DecidableEq α] (m : JMap α β)
    (a : α) (b : β) (h : m.NodupKeys) : (m.set a b).NodupKeys := by
  induction m with
  | nil => simp [JMap.set, JMap.NodupKeys, JMap.entries]
  | cons hd tl ih =>
    obtain ⟨k, v⟩ := hd
    simp only [JMap.NodupKeys, JMap.entries, List.map_cons,
      List.nodup_cons] at h
    by_cases hk : k = a
    · subst hk
      simpa [JMap.set, JMap.NodupKeys, JMap.entries] using h
    · have htl := ih h.2
      simp only [JMap.set, if_neg hk, JMap.NodupKeys, JMap.entries,
        List.map_cons, List.nodup_cons]
      refine ⟨?_, htl⟩
      intro hmem
      rcases JMap.mem_keys_set_elim tl a b k hmem with h1 | h1
      · exact hk h1
      · exact h.1 h1

theorem JMap.del_sublist {α β : Type} [DecidableEq α] (m : JMap α β)
    (a : α) : List.Sublist (JMap.entries (m.del a)) (JMap.entries m) := by
  induction m with
  | nil => simp [JMap.del, JMap.entries]
  | cons hd tl ih =>
    obtain ⟨k, v⟩ := hd
    by_cases hk : k = a
    · subst hk
      simp only [JMap.del, JMap.entries, if_true, reduceIte]
      exact List.sublist_cons_self (k, v) tl
    · simpa [JMap.del, hk, JMap.entries] using List.Sublist.cons₂ (k, v) ih

theorem JMap.nodupKeys_del {α β : Type} [DecidableEq α] (m : JMap α β)
    (a : α) (h : m.NodupKeys) : (m.del a).NodupKeys :=
  List.Nodup.sublist (List.Sublist.map Prod.fst (JMap.del_sublist m a)) h

theorem JMap.hasKey_set {α β : Type} [DecidableEq α] (m : JMap α β)
    (a : α) (b : β) (p : α) :
    (m.set a b).hasKey p = if p = a then true else m.hasKey p := by
  by_cases hp : p = a
  · subst hp
    simp [JMap.hasKey]
  · simp [JMap.hasKey, hp,
      JMap.get_set_ne m a p b (fun he => hp he.symm)]

theorem JMap.hasKey_del {α β : Type} [DecidableEq α] (m : JMap α β)
    (a p : α) (h : m.NodupKeys) :
    (m.del a).hasKey p = if p = a then false else m.hasKey p := by
  by_cases hp : p = a
  · subst hp
    simp [JMap.hasKey, JMap.get_del_self m p h]
  · simp [JMap.hasKey, hp,
      JMap.get_del_ne m a p (fun he => hp he.symm)]

theorem admittedAfter_append (p : String) (i : Bool)
    (l1 l2 : List EmittedEvent) :
    admittedAfter p i (l1 ++ l2)
      = admittedAfter p (admittedAfter p i l1) l2 := by
  unfold admittedAfter
  rw [List.foldl_append]

theorem globStep_adm (isM initAdm : String → Bool) (g : GlobState)
    (done : List EmittedEvent) (a : GlobAct)
    (h : AdmInv initAdm g done) :
    AdmInv initAdm (globStep isM g a).1 (done ++ (globStep isM g a).2) ∧
    (∀ e ∈ (globStep isM g a).2, e.type ≠ OpType.add →
      admittedAfter e.path (initAdm e.path) done = true) := by
  obtain ⟨hnodup, hninit, hadm⟩ := h
  cases a with
  | addFile fp st =>
    rcases hhas : g.stats.hasKey fp with _ | _
    · rcases hM : isM fp with _ | _
      · have hstep : globStep isM g (GlobAct.addFile fp st) = (g, []) := by
          simp [globStep, GlobState.addFile, hhas, hM]
        rw [hstep]
        exact ⟨by simpa using ⟨hnodup, hninit, hadm⟩, by simp⟩
      · by_cases hAlive : g.state = LifecycleState.Alive
        · have hstep : globStep isM g (GlobAct.addFile fp st)
              = ({ g with stats := g.stats.set fp st },
                [{ type := OpType.add, path := fp, stat := st }]) := by
            simp [globStep, GlobState.addFile, hhas, hM, hAlive]
          rw [hstep]
          refine ⟨⟨JMap.nodupKeys_set g.stats fp st hnodup, hninit, ?_⟩, ?_⟩
          · intro _ p
            rw [JMap.hasKey_set, admittedAfter_append]
            by_cases hp : p = fp
            · subst hp
              simp [admittedAfter]
            · have hne : ¬(fp = p) := fun he => hp he.symm
              simp only [hp, if_false]
              rw [hadm hAlive p]
              simp [admittedAfter, hne]
          · intro e he ht
            simp only [List.mem_singleton] at he
            rw [he] at ht
            simp at ht
        · have hstep : globStep isM g (GlobAct.addFile fp st)
              = ({ g with stats := g.stats.set fp st }, []) := by
            simp [globStep, GlobState.addFile, hhas, hM, hAlive]
          rw [hstep]
          refine ⟨⟨JMap.nodupKeys_set g.stats fp st hnodup, hninit, ?_⟩,
            by simp⟩
          intro hAlive'
          exact absurd hAlive' hAlive
    · have hstep : globStep isM g (GlobAct.addFile fp st) = (g, []) := by
        simp [globStep, GlobState.addFile, hhas]
      rw [hstep]
      exact ⟨by simpa using ⟨hnodup, hninit, hadm⟩, by simp⟩
  | removeFile fp =>
    rcases hget : g.stats.get fp with _ | st
    · have hstep : globStep isM g (GlobAct.removeFile fp) = (g, []) := by
        simp [globStep, GlobState.removeFile, hget]
      rw [hstep]
      exact ⟨by simpa using ⟨hnodup, hninit, hadm⟩, by simp⟩
    · by_cases hAlive : g.state = LifecycleState.Alive
      · have hstep : globStep isM g (GlobAct.removeFile fp)
            = ({ g with stats := g.stats.del fp },
              [{ type := OpType.remove, path := fp, stat := st }]) := by
          simp [globStep, GlobState.removeFile, hget, hAlive]
        have hKey : g.stats.hasKey fp = true :=
          JMap.get_imp_hasKey g.stats fp st hget
        rw [hstep]
        refine ⟨⟨JMap.nodupKeys_del g.stats fp hnodup, hninit, ?_⟩, ?_⟩
        · intro _ p
          rw [JMap.hasKey_del g.stats fp p hnodup, admittedAfter_append]
          by_cases hp : p = fp
          · subst hp
            simp [admittedAfter]
          · have hne : ¬(fp = p) := fun he => hp he.symm
            simp only [hp, if_false]
            rw [hadm hAlive p]
            simp [admittedAfter, hne]
        · intro e he _
          simp only [List.mem_singleton] at he
          rw [he]
          rw [← hadm hAlive fp]
          exact hKey
      · have hstep : globStep isM g (GlobAct.removeFile fp)
            = ({ g with stats := g.stats.del fp }, []) := by
          simp [globStep, GlobState.removeFile, hget, hAlive]
        rw [hstep]
        refine ⟨⟨JMap.nodupKeys_del g.stats fp hnodup, hninit, ?_⟩,
          by simp⟩
        intro hAlive'
        exact absurd hAlive' hAlive
  | changeFile fp st =>
    rcases hhas : g.stats.hasKey fp with _ | _
    · have hstep : globStep isM g (GlobAct.changeFile fp st) = (g, []) := by
        simp [globStep, GlobState.changeFile, hhas]
      rw [hstep]
      exact ⟨by simpa using ⟨hnodup, hninit, hadm⟩, by simp⟩
    · by_cases hAlive : g.state = LifecycleState.Alive
      · have hstep : globStep isM g (GlobAct.changeFile fp st)
            = ({ g with stats := g.stats.set fp st },
              [{ type := OpType.change, path := fp, stat := st }]) := by
          simp [globStep, GlobState.changeFile, hhas, hAlive]
        rw [hstep]
        refine ⟨⟨JMap.nodupKeys_set g.stats fp st hnodup, hninit, ?_⟩, ?_⟩
        · intro _ p
          rw [JMap.hasKey_set, admittedAfter_append]
          by_cases hp : p = fp
          · subst hp
            simp only [if_true, reduceIte]
            rw [← hadm hAlive p]
            simp [admittedAfter, hhas]
          · have hne : ¬(fp = p) := fun he => hp he.symm
            simp only [hp, if_false]
            rw [hadm hAlive p]
            simp [admittedAfter, hne]
        · intro e he _
          simp only [List.mem_singleton] at he
          rw [he]
          rw [← hadm hAlive fp]
          exact hhas
      · have hstep : globStep isM g (GlobAct.changeFile fp st)
            = ({ g with stats := g.stats.set fp st }, []) := by
          simp [globStep, GlobState.changeFile, hhas, hAlive]
        rw [hstep]
        refine ⟨⟨JMap.nodupKeys_set g.stats fp st hnodup, hninit, ?_⟩,
          by simp⟩
        intro hAlive'
        exact absurd hAlive' hAlive
  | setAlive =>
    by_cases hDis : g.state = LifecycleState.Disposed
    · have hstep : globStep isM g GlobAct.setAlive = (g, []) := by
        simp [globStep, GlobState.setAlive, hDis]
      rw [hstep]
      exact ⟨by simpa using ⟨hnodup, hninit, hadm⟩, by simp⟩
    · have hAlive : g.state = LifecycleState.Alive := by
        rcases hst : g.state with _ | _ | _
        · exact absurd hst hninit
        · rfl
        · exact absurd hst hDis
      have hstep : globStep isM g GlobAct.setAlive
          = ({ g with state := LifecycleState.Alive }, []) := by
        simp [globStep, GlobState.setAlive, hDis]
      rw [hstep]
      refine ⟨⟨hnodup, by simp, ?_⟩, by simp⟩
      intro _ p
      rw [List.append_nil]
      exact hadm hAlive p
  | closeCall =>
    by_cases hDis : g.state = LifecycleState.Disposed
    · have hstep : globStep isM g GlobAct.closeCall = (g, []) := by
        simp [globStep, GlobState.close, hDis]
      rw [hstep]
      exact ⟨by simpa using ⟨hnodup, hninit, hadm⟩, by simp⟩
    · have hstep : globStep isM g GlobAct.closeCall
          = ({ stats := JMap.empty
               watchers := JMap.empty
               state := LifecycleState.Disposed
               ready := g.ready }, []) := by
        simp [globStep, GlobState.close, hDis]
      rw [hstep]
      refine ⟨⟨JMap.nodupKeys_empty, by simp, ?_⟩, by simp⟩
      intro hAlive'
      simp at hAlive'

theorem globStep_events_small (isM : String → Bool) (g : GlobState)
    (a : GlobAct) :
    (globStep isM g a).2 = [] ∨ ∃ e0, (globStep isM g a).2 = [e0] := by
  cases a with
  | addFile fp st =>
    rcases hhas : g.stats.hasKey fp with _ | _
    · rcases hM : isM fp with _ | _
      · left
        simp [globStep, GlobState.addFile, hhas, hM]
      · by_cases hAlive : g.state = LifecycleState.Alive
        · right
          refine ⟨{ type := OpType.add, path := fp, stat := st }, ?_⟩
          simp [globStep, GlobState.addFile, hhas, hM, hAlive]
        · left
          simp [globStep, GlobState.addFile, hhas, hM, hAlive]
    · left
      simp [globStep, GlobState.addFile, hhas]
  | removeFile fp =>
    rcases hget : g.stats.get fp with _ | st
    · left
      simp [globStep, GlobState.removeFile, hget]
    · by_cases hAlive : g.state = LifecycleState.Alive
      · right
        refine ⟨{ type := OpType.remove, path := fp, stat := st }, ?_⟩
        simp [globStep, GlobState.removeFile, hget, hAlive]
      · left
        simp [globStep, GlobState.removeFile, hget, hAlive]
  | changeFile fp st =>
    rcases hhas : g.stats.hasKey fp with _ | _
    · left
      simp [globStep, GlobState.changeFile, hhas]
    · by_cases hAlive : g.state = LifecycleState.Alive
      · right
        refine ⟨{ type := OpType.change, path := fp, stat := st }, ?_⟩
        simp [globStep, GlobState.changeFile, hhas, hAlive]
      · left
        simp [globStep, GlobState.changeFile, hhas, hAlive]
  | setAlive =>
    left
    rfl
  | closeCall =>
    left
    rfl

theorem globRun_adm (isM initAdm : String → Bool) (steps : List GlobAct) :
    ∀ (g : GlobState) (done : List EmittedEvent), AdmInv initAdm g done →
      ∀ (pre : List EmittedEvent) (e : EmittedEvent)
        (post : List EmittedEvent),
        (globRun isM g steps).2 = pre ++ e :: post →
        e.type ≠ OpType.add →
        admittedAfter e.path (initAdm e.path) (done ++ pre) = true := by
  induction steps with
  | nil =>
    intro g done _ pre e post hsplit _
    simp only [globRun] at hsplit
    exact absurd hsplit.symm (List.append_ne_nil_of_right_ne_nil pre
      (List.cons_ne_nil e post))
  | cons a rest ih =>
    intro g done h pre e post hsplit ht
    have hstep := globStep_adm isM initAdm g done a h
    have hshape : (globRun isM g (a :: rest)).2
        = (globStep isM g a).2 ++ (globRun isM (globStep isM g a).1 rest).2
        := rfl
    rcases globStep_events_small isM g a with hevs | ⟨e0, hevs⟩
    · rw [hshape, hevs, List.nil_append] at hsplit
      have h1 := hstep.1
      rw [hevs, List.append_nil] at h1
      exact ih (globStep isM g a).1 done h1 pre e post hsplit ht
    · rw [hshape, hevs] at hsplit
      cases pre with
      | nil =>
        simp only [List.nil_append] at hsplit
        have he0 : e0 = e := (List.cons.injEq _ _ _ _ ▸ hsplit).1
        rw [admittedAfter_append]
        simp only [admittedAfter]
        rw [← he0]
        exact hstep.2 e0 (by rw [hevs]; simp) (by rw [he0]; exact ht)
      | cons p0 pre' =>
        simp only [List.cons_append] at hsplit
        have he0 : e0 = p0 := (List.cons.injEq _ _ _ _ ▸ hsplit).1
        have hrest : (globRun isM (globStep isM g a).1 rest).2
            = pre' ++ e :: post := (List.cons.injEq _ _ _ _ ▸ hsplit).2
        have h1 := hstep.1
        rw [hevs] at h1
        have := ih (globStep isM g a).1 (done ++ [e0]) h1 pre' e post
          hrest ht
        rw [← he0]
        have hassoc : done ++ e0 :: pre' = (done ++ [e0]) ++ pre' := by
          simp
        rw [hassoc]
        exact this

/-- C7 counterexample: a file silently admitted while Initializing can
receive a `remove` (or `change`) with **no** prior emitted `add`: the run
admits `f` during initialization, becomes Alive, and removes `f`, emitting
a single `remove` with an empty prefix. -/
theorem c7_remove_without_prior_add_counterexample :
    ¬ (∀ (pre : List EmittedEvent) (e : EmittedEvent)
          (post : List EmittedEvent),
        (globRun (fun _ => true) GlobState.initial
            [GlobAct.addFile "f" sampleStat, GlobAct.setAlive,
              GlobAct.removeFile "f"]).2 = pre ++ e :: post →
        e.type ≠ OpType.add →
        ∃ a ∈ pre, a.path = e.path ∧ a.type = OpType.add) := by
  intro h
  have hrun : (globRun (fun _ => true) GlobState.initial
      [GlobAct.addFile "f" sampleStat, GlobAct.setAlive,
        GlobAct.removeFile "f"]).2
      = [] ++ ({ type := OpType.remove, path := "f", stat := sampleStat }
          : EmittedEvent) :: [] := by decide
  obtain ⟨a, ha, -⟩ := h []
    { type := OpType.remove, path := "f", stat := sampleStat } [] hrun
    (by decide)
  exact absurd ha (List.not_mem_nil a)

/-! ## C7 continued: admission discipline of the native and polling
watchers -/

theorem admittedAfter_cons (p : String) (i : Bool) (e : EmittedEvent)
    (rest : List EmittedEvent) :
    admittedAfter p i (e :: rest)
      = admittedAfter p
          (if e.path = p then
            (match e.type with
              | OpType.add => true
              | OpType.remove => false
              | OpType.change => i)
          else i) rest := rfl

theorem admittedAfter_untouched (p : String) (evs : List EmittedEvent)
    (h : ∀ e ∈ evs, e.path ≠ p) :
    ∀ i : Bool, admittedAfter p i evs = i := by
  induction evs with
  | nil => intro i; rfl
  | cons e rest ih =>
    intro i
    rw [admittedAfter_cons]
    rw [if_neg (h e (by simp))]
    exact ih (fun e' he' => h e' (by simp [he'])) i

theorem admittedAfter_flush (p : String) (q : JMap String Operation)
    (hnodup : q.NodupKeys) :
    ∀ i : Bool,
      admittedAfter p i ((JMap.entries q).map
          (fun kv => { type := kv.2.type, path := kv.1, stat := kv.2.stat }))
        = match q.get p with
          | none => i
          | some op =>
            match op.type with
            | OpType.add => true
            | OpType.remove => false
            | OpType.change => i := by
  induction q with
  | nil => intro i; rfl
  | cons hd tl ih =>
    obtain ⟨k, v⟩ := hd
    simp only [JMap.NodupKeys, JMap.entries, List.map_cons,
      List.nodup_cons] at hnodup
    intro i
    simp only [JMap.entries] at ih ⊢
    by_cases hk : k = p
    · subst hk
      rw [List.map_cons, admittedAfter_cons]
      simp only [if_pos rfl]
      have huntouched : ∀ e ∈ tl.map
          (fun kv => ({ type := kv.2.type, path := kv.1, stat := kv.2.stat }
            : EmittedEvent)), e.path ≠ k := by
        intro e he
        rw [List.mem_map] at he
        obtain ⟨kv', hkv', hkve⟩ := he
        rw [← hkve]
        intro hcontra
        exact hnodup.1 (List.mem_map.mpr ⟨kv', hkv', hcontra⟩)
      rw [admittedAfter_untouched k _ huntouched]
      simp [JMap.get]
    · rw [List.map_cons, admittedAfter_cons]
      rw [if_neg hk]
      rw [ih hnodup.2 i]
      simp [JMap.get, hk]

theorem JMap.get_of_split {α β : Type} [DecidableEq α]
    (u v : List (α × β)) (k : α) (b : β)
    (hu : ∀ kv ∈ u, kv.1 ≠ k) :
    JMap.get (u ++ (k, b) :: v) k = some b := by
  induction u with
  | nil => simp [JMap.get]
  | cons hd u' ih =>
    obtain ⟨k0, b0⟩ := hd
    have hk0 : ¬(k0 = k) := hu (k0, b0) (by simp)
    simp only [List.cons_append, JMap.get, if_neg hk0]
    exact ih (fun kv hkv => hu kv (by simp [hkv]))

theorem JMap.mem_set_elim_ne {α β : Type} [DecidableEq α] (m : JMap α β)
    (a : α) (b : β) (kv : α × β) (hnodup : m.NodupKeys)
    (h : kv ∈ JMap.entries (m.set a b)) :
    kv = (a, b) ∨ (kv ∈ JMap.entries m ∧ kv.1 ≠ a) := by
  induction m with
  | nil =>
    left
    simpa [JMap.set, JMap.entries] using h
  | cons hd tl ih =>
    obtain ⟨k, v⟩ := hd
    simp only [JMap.NodupKeys, JMap.entries, List.map_cons,
      List.nodup_cons] at hnodup
    by_cases hk : k = a
    · subst hk
      simp only [JMap.set, if_true, reduceIte, JMap.entries,
        List.mem_cons] at h
      rcases h with h | h
      · exact Or.inl h
      · refine Or.inr ⟨List.mem_cons_of_mem _ h, ?_⟩
        intro hcontra
        exact hnodup.1 (List.mem_map.mpr ⟨kv, h, hcontra⟩)
    · simp only [JMap.set, if_neg hk, JMap.entries, List.mem_cons] at h
      rcases h with h | h
      · refine Or.inr ⟨by simp [JMap.entries, h], ?_⟩
        rw [h]
        exact hk
      · rcases ih hnodup.2 h with h' | h'
        · exact Or.inl h'
        · exact Or.inr ⟨List.mem_cons_of_mem _ h'.1, h'.2⟩

theorem eventsFor_append (wid : Nat) (l1 l2 : List (Nat × EmittedEvent)) :
    eventsFor wid (l1 ++ l2) = eventsFor wid l1 ++ eventsFor wid l2 := by
  simp [eventsFor, List.filter_append]

theorem eventsFor_map_self (wid : Nat) (evs : List EmittedEvent) :
    eventsFor wid (evs.map (fun e => (wid, e))) = evs := by
  induction evs with
  | nil => rfl
  | cons e rest ih =>
    simp only [eventsFor] at ih
    simp [eventsFor, List.filter_cons, ih]

theorem eventsFor_map_other (wid wid' : Nat) (h : ¬wid' = wid)
    (evs : List EmittedEvent) :
    eventsFor wid (evs.map (fun e => (wid', e))) = [] := by
  induction evs with
  | nil => rfl
  | cons e rest ih =>
    simp only [List.map_cons, eventsFor, List.filter_cons,
      decide_eq_true_eq] at ih ⊢
    rw [if_neg h]
    exact ih

theorem map_eq_append_cons_decomp {α β : Type} (f : α → β) (l : List α)
    (l1 : List β) (x : β) (l2 : List β) (h : l.map f = l1 ++ x :: l2) :
    ∃ u kv v, l = u ++ kv :: v ∧ l1 = u.map f ∧ x = f kv ∧
      l2 = v.map f := by
  induction l generalizing l1 with
  | nil =>
    rw [List.map_nil] at h
    exact absurd h.symm (List.append_ne_nil_of_right_ne_nil l1
      (List.cons_ne_nil x l2))
  | cons hd tl ih =>
    cases l1 with
    | nil =>
      simp only [List.map_cons, List.nil_append, List.cons.injEq] at h
      exact ⟨[], hd, tl, by simp, rfl, h.1.symm, h.2.symm⟩
    | cons y l1' =>
      simp only [List.map_cons, List.cons_append, List.cons.injEq] at h
      obtain ⟨u, kv, v, h2, h3, h4, h5⟩ := ih l1' h.2
      exact ⟨hd :: u, kv, v, by simp [h2], by simp [h3, h.1.symm], h4, h5⟩

theorem pollStep_adm (initAdm : String → Bool) (w : PollState)
    (done : List EmittedEvent) (a : PollAct)
    (h : PollAdmInv initAdm w done) :
    PollAdmInv initAdm (pollStep w a).1 (done ++ (pollStep w a).2) ∧
    (∀ e ∈ (pollStep w a).2, e.type ≠ OpType.add →
      admittedAfter e.path (initAdm e.path) done = true) := by
  obtain ⟨hnodup, hadm⟩ := h
  cases a with
  | childChange fp st =>
    by_cases hDis : w.state = LifecycleState.Disposed
    · have hstep : pollStep w (PollAct.childChange fp st) = (w, []) := by
        simp [pollStep, onChildChange, hDis]
      rw [hstep]
      exact ⟨by simpa using ⟨hnodup, hadm⟩, by simp⟩
    · rcases hprev : w.stats.get fp with _ | p0 <;>
        rcases hcurr : sentinelFilter st with _ | cs
      · have hstep : pollStep w (PollAct.childChange fp st) = (w, []) := by
          simp [pollStep, onChildChange, hDis, hprev, hcurr]
        rw [hstep]
        exact ⟨by simpa using ⟨hnodup, hadm⟩, by simp⟩
      · have hstep : pollStep w (PollAct.childChange fp st) = (w, []) := by
          simp [pollStep, onChildChange, hDis, hprev, hcurr]
        rw [hstep]
        exact ⟨by simpa using ⟨hnodup, hadm⟩, by simp⟩
      · have hstep : pollStep w (PollAct.childChange fp st) = (w, []) := by
          simp [pollStep, onChildChange, hDis, hprev, hcurr]
        rw [hstep]
        exact ⟨by simpa using ⟨hnodup, hadm⟩, by simp⟩
      · have hKey : w.stats.hasKey fp = true :=
          JMap.get_imp_hasKey w.stats fp p0 hprev
        by_cases hlt : p0.mtimeMs < cs.mtimeMs
        · rcases hdir : cs.isDirectory with _ | _
          · by_cases hAlive : w.state = LifecycleState.Alive
            · have hstep : pollStep w (PollAct.childChange fp st)
                  = ({ w with stats := w.stats.set fp cs },
                    [{ type := OpType.change, path := fp, stat := cs }])
                  := by
                simp [pollStep, onChildChange, hDis, hprev, hcurr, hlt,
                  hdir, hAlive]
              rw [hstep]
              refine ⟨⟨JMap.nodupKeys_set w.stats fp cs hnodup, ?_⟩, ?_⟩
              · intro _ p
                rw [JMap.hasKey_set, admittedAfter_append]
                by_cases hp : p = fp
                · subst hp
                  simp only [if_true, reduceIte]
                  rw [← hadm hAlive p]
                  simp [admittedAfter, hKey]
                · have hne : ¬(fp = p) := fun he => hp he.symm
                  simp only [hp, if_false]
                  rw [hadm hAlive p]
                  simp [admittedAfter, hne]
              · intro e he _
                simp only [List.mem_singleton] at he
                rw [he]
                rw [← hadm hAlive fp]
                exact hKey
            · have hstep : pollStep w (PollAct.childChange fp st)
                  = ({ w with stats := w.stats.set fp cs }, []) := by
                simp [pollStep, onChildChange, hDis, hprev, hcurr, hlt,
                  hdir, hAlive]
              rw [hstep]
              refine ⟨⟨JMap.nodupKeys_set w.stats fp cs hnodup, ?_⟩,
                by simp⟩
              intro hAlive'
              exact absurd hAlive' hAlive
          · have hstep : pollStep w (PollAct.childChange fp st)
                = ({ w with stats := w.stats.set fp cs }, []) := by
              simp [pollStep, onChildChange, hDis, hprev, hcurr, hlt,
                hdir]
            rw [hstep]
            refine ⟨⟨JMap.nodupKeys_set w.stats fp cs hnodup, ?_⟩,
              by simp⟩
            intro hAlive p
            rw [JMap.hasKey_set, List.append_nil]
            by_cases hp : p = fp
            · subst hp
              simp only [if_true, reduceIte]
              rw [← hadm hAlive p]
              exact hKey.symm
            · simp only [hp, if_false]
              exact hadm hAlive p
        · have hstep : pollStep w (PollAct.childChange fp st) = (w, []) := by
            simp [pollStep, onChildChange, hDis, hprev, hcurr, hlt]
          rw [hstep]
          exact ⟨by simpa using ⟨hnodup, hadm⟩, by simp⟩
  | startChildResume fp stOpt =>
    rcases stOpt with _ | st0
    · have hstep : pollStep w (PollAct.startChildResume fp none)
          = (w, []) := by
        simp [pollStep, startWatchingChildResume]
      rw [hstep]
      exact ⟨by simpa using ⟨hnodup, hadm⟩, by simp⟩
    · by_cases hDis : w.state = LifecycleState.Disposed
      · have hstep : pollStep w (PollAct.startChildResume fp (some st0))
            = (w, []) := by
          simp [pollStep, startWatchingChildResume, hDis]
        rw [hstep]
        exact ⟨by simpa using ⟨hnodup, hadm⟩, by simp⟩
      · by_cases hAlive : w.state = LifecycleState.Alive
        · have hstep : pollStep w (PollAct.startChildResume fp (some st0))
              = ({ w with
                    stats := w.stats.set fp st0
                    listeners := w.listeners.set fp () },
                [{ type := OpType.add, path := fp, stat := st0 }]) := by
            simp [pollStep, startWatchingChildResume, hDis, hAlive]
          rw [hstep]
          refine ⟨⟨JMap.nodupKeys_set w.stats fp st0 hnodup, ?_⟩, ?_⟩
          · intro _ p
            rw [JMap.hasKey_set, admittedAfter_append]
            by_cases hp : p = fp
            · subst hp
              simp [admittedAfter]
            · have hne : ¬(fp = p) := fun he => hp he.symm
              simp only [hp, if_false]
              rw [hadm hAlive p]
              simp [admittedAfter, hne]
          · intro e he ht
            simp only [List.mem_singleton] at he
            rw [he] at ht
            simp at ht
        · have hstep : pollStep w (PollAct.startChildResume fp (some st0))
              = ({ w with
                    stats := w.stats.set fp st0
                    listeners := w.listeners.set fp () }, []) := by
            simp [pollStep, startWatchingChildResume, hDis, hAlive]
          rw [hstep]
          refine ⟨⟨JMap.nodupKeys_set w.stats fp st0 hnodup, ?_⟩, by simp⟩
          intro hAlive'
          exact absurd hAlive' hAlive
  | stopChild fp =>
    rcases hget : w.stats.get fp with _ | st0
    · have hstep : pollStep w (PollAct.stopChild fp) = (w, []) := by
        simp [pollStep, stopWatchingChild, hget]
      rw [hstep]
      exact ⟨by simpa using ⟨hnodup, hadm⟩, by simp⟩
    · have hKey : w.stats.hasKey fp = true :=
        JMap.get_imp_hasKey w.stats fp st0 hget
      by_cases hAlive : w.state = LifecycleState.Alive
      · have hstep : pollStep w (PollAct.stopChild fp)
            = ({ w with
                  stats := w.stats.del fp
                  listeners := w.listeners.del fp },
              [{ type := OpType.remove, path := fp, stat := st0 }]) := by
          simp [pollStep, stopWatchingChild, hget, hAlive]
        rw [hstep]
        refine ⟨⟨JMap.nodupKeys_del w.stats fp hnodup, ?_⟩, ?_⟩
        · intro _ p
          rw [JMap.hasKey_del w.stats fp p hnodup, admittedAfter_append]
          by_cases hp : p = fp
          · subst hp
            simp [admittedAfter]
          · have hne : ¬(fp = p) := fun he => hp he.symm
            simp only [hp, if_false]
            rw [hadm hAlive p]
            simp [admittedAfter, hne]
        · intro e he _
          simp only [List.mem_singleton] at he
          rw [he]
          rw [← hadm hAlive fp]
          exact hKey
      · have hstep : pollStep w (PollAct.stopChild fp)
            = ({ w with
                  stats := w.stats.del fp
                  listeners := w.listeners.del fp }, []) := by
          simp [pollStep, stopWatchingChild, hget, hAlive]
        rw [hstep]
        refine ⟨⟨JMap.nodupKeys_del w.stats fp hnodup, ?_⟩, by simp⟩
        intro hAlive'
        exact absurd hAlive' hAlive
  | closeCall =>
    by_cases hDis : w.state = LifecycleState.Disposed
    · have hstep : pollStep w PollAct.closeCall = (w, []) := by
        simp [pollStep, PollState.close, hDis]
      rw [hstep]
      exact ⟨by simpa using ⟨hnodup, hadm⟩, by simp⟩
    · have hstep : pollStep w PollAct.closeCall
          = ({ w with
                stats := JMap.empty
                listeners := JMap.empty
                state := LifecycleState.Disposed }, []) := by
        simp [pollStep, PollState.close, hDis]
      rw [hstep]
      refine ⟨⟨JMap.nodupKeys_empty, ?_⟩, by simp⟩
      intro hAlive'
      simp at hAlive'

theorem pollStep_events_small (w : PollState) (a : PollAct) :
    (pollStep w a).2 = [] ∨ ∃ e0, (pollStep w a).2 = [e0] := by
  cases a with
  | childChange fp st =>
    by_cases hDis : w.state = LifecycleState.Disposed
    · left
      simp [pollStep, onChildChange, hDis]
    · rcases hprev : w.stats.get fp with _ | p0 <;>
        rcases hcurr : sentinelFilter st with _ | cs
      · left
        simp [pollStep, onChildChange, hDis, hprev, hcurr]
      · left
        simp [pollStep, onChildChange, hDis, hprev, hcurr]
      · left
        simp [pollStep, onChildChange, hDis, hprev, hcurr]
      · by_cases hlt : p0.mtimeMs < cs.mtimeMs
        · rcases hdir : cs.isDirectory with _ | _
          · by_cases hAlive : w.state = LifecycleState.Alive
            · right
              refine ⟨{ type := OpType.change, path := fp, stat := cs },
                ?_⟩
              simp [pollStep, onChildChange, hDis, hprev, hcurr, hlt,
                hdir, hAlive]
            · left
              simp [pollStep, onChildChange, hDis, hprev, hcurr, hlt,
                hdir, hAlive]
          · left
            simp [pollStep, onChildChange, hDis, hprev, hcurr, hlt, hdir]
        · left
          simp [pollStep, onChildChange, hDis, hprev, hcurr, hlt]
  | startChildResume fp stOpt =>
    rcases stOpt with _ | st0
    · left
      simp [pollStep, startWatchingChildResume]
    · by_cases hDis : w.state = LifecycleState.Disposed
      · left
        simp [pollStep, startWatchingChildResume, hDis]
      · by_cases hAlive : w.state = LifecycleState.Alive
        · right
          refine ⟨{ type := OpType.add, path := fp, stat := st0 }, ?_⟩
          simp [pollStep, startWatchingChildResume, hDis, hAlive]
        · left
          simp [pollStep, startWatchingChildResume, hDis, hAlive]
  | stopChild fp =>
    rcases hget : w.stats.get fp with _ | st0
    · left
      simp [pollStep, stopWatchingChild, hget]
    · by_cases hAlive : w.state = LifecycleState.Alive
      · right
        refine ⟨{ type := OpType.remove, path := fp, stat := st0 }, ?_⟩
        simp [pollStep, stopWatchingChild, hget, hAlive]
      · left
        simp [pollStep, stopWatchingChild, hget, hAlive]
  | closeCall =>
    left
    by_cases hDis : w.state = LifecycleState.Disposed
    · simp [pollStep, PollState.close, hDis]
    · simp [pollStep, PollState.close, hDis]

theorem pollRun_adm (initAdm : String → Bool) (acts : List PollAct) :
    ∀ (w : PollState) (done : List EmittedEvent), PollAdmInv initAdm w done →
      ∀ (pre : List EmittedEvent) (e : EmittedEvent)
        (post : List EmittedEvent),
        (pollRun w acts).2 = pre ++ e :: post →
        e.type ≠ OpType.add →
        admittedAfter e.path (initAdm e.path) (done ++ pre) = true := by
  induction acts with
  | nil =>
    intro w done _ pre e post hsplit _
    simp only [pollRun] at hsplit
    exact absurd hsplit.symm (List.append_ne_nil_of_right_ne_nil pre
      (List.cons_ne_nil e post))
  | cons a rest ih =>
    intro w done h pre e post hsplit ht
    have hstep := pollStep_adm initAdm w done a h
    have hshape : (pollRun w (a :: rest)).2
        = (pollStep w a).2 ++ (pollRun (pollStep w a).1 rest).2 := rfl
    rcases pollStep_events_small w a with hevs | ⟨e0, hevs⟩
    · rw [hshape, hevs, List.nil_append] at hsplit
      have h1 := hstep.1
      rw [hevs, List.append_nil] at h1
      exact ih (pollStep w a).1 done h1 pre e post hsplit ht
    · rw [hshape, hevs] at hsplit
      cases pre with
      | nil =>
        simp only [List.nil_append] at hsplit
        have he0 : e0 = e := (List.cons.injEq _ _ _ _ ▸ hsplit).1
        rw [admittedAfter_append]
        simp only [admittedAfter]
        rw [← he0]
        exact hstep.2 e0 (by rw [hevs]; simp) (by rw [he0]; exact ht)
      | cons p0 pre' =>
        simp only [List.cons_append] at hsplit
        have he0 : e0 = p0 := (List.cons.injEq _ _ _ _ ▸ hsplit).1
        have hrest : (pollRun (pollStep w a).1 rest).2
            = pre' ++ e :: post := (List.cons.injEq _ _ _ _ ▸ hsplit).2
        have h1 := hstep.1
        rw [hevs] at h1
        have hihres := ih (pollStep w a).1 (done ++ [e0]) h1 pre' e post
          hrest ht
        rw [← he0]
        have hassoc : done ++ e0 :: pre' = (done ++ [e0]) ++ pre' := by
          simp
        rw [hassoc]
        exact hihres

theorem JMap.hasKey_set_ne {α β : Type} [DecidableEq α] (m : JMap α β)
    (a : α) (b : β) (p : α) (h : ¬p = a) :
    (m.set a b).hasKey p = m.hasKey p := by
  rw [JMap.hasKey_set, if_neg h]

theorem JMap.hasKey_del_ne {α β : Type} [DecidableEq α] (m : JMap α β)
    (a p : α) (h : ¬p = a) :
    (m.del a).hasKey p = m.hasKey p := by
  simp [JMap.hasKey, JMap.get_del_ne m a p (fun he => h he.symm)]

/-- Transport of the per-path admission relation along a state change that
leaves the path's queue entry and `stats` membership untouched. -/
theorem PathAdm_congr (initAdm : String → Bool) (w w' : RegW)
    (done : List EmittedEvent) (p : String)
    (hq : w'.queue.get p = w.queue.get p)
    (hk : w'.stats.hasKey p = w.stats.hasKey p)
    (h : PathAdm initAdm w done p) : PathAdm initAdm w' done p := by
  unfold PathAdm at h ⊢
  rw [hq, hk]
  exact h

/-- The resumption of `_onChange` preserves the per-instance admission
invariant without emitting anything: the enqueue merge rules move each
path between the four `PathAdm` cases consistently (in particular a
pending `add` followed by an observed removal deletes the entry, matching
the never-announced path being silently dropped from `stats`). -/
theorem onChangeResume_adm (initAdm : String → Bool) (w : RegW)
    (done : List EmittedEvent) (fp : String) (c : Option Stats)
    (h : RegWAdm initAdm w done) :
    RegWAdm initAdm (onChangeResume w fp c).1 done := by
  obtain ⟨hs, hq, hne, hadm⟩ := h
  by_cases hDis : w.state = LifecycleState.Disposed
  · rw [onChangeResume_disposed_eq w fp c hDis]
    exact ⟨hs, hq, hne, hadm⟩
  by_cases hAlive : w.state = LifecycleState.Alive
  case neg =>
    rcases c with _ | cs
    · rcases hprev : w.stats.get fp with _ | p0
      · have hstep : (onChangeResume w fp none).1 = w := by
          simp [onChangeResume, hDis, hprev]
        rw [hstep]
        exact ⟨hs, hq, hne, hadm⟩
      · have hstep : (onChangeResume w fp none).1
            = { w with stats := w.stats.del fp } := by
          simp [onChangeResume, hDis, hprev, hAlive]
        rw [hstep]
        exact ⟨JMap.nodupKeys_del _ _ hs, hq, fun h' => hne h',
          fun hA => absurd hA hAlive⟩
    · have hstep : (onChangeResume w fp (some cs)).1
          = { w with stats := w.stats.set fp cs } := by
        simp [onChangeResume, hDis, hAlive]
      rw [hstep]
      exact ⟨JMap.nodupKeys_set _ _ _ hs, hq, fun h' => hne h',
        fun hA => absurd hA hAlive⟩
  case pos =>
    rcases c with _ | cs
    · -- the file is gone
      rcases hprev : w.stats.get fp with _ | p0
      · have hstep : (onChangeResume w fp none).1 = w := by
          simp [onChangeResume, hDis, hprev]
        rw [hstep]
        exact ⟨hs, hq, hne, hadm⟩
      · have hKey : w.stats.hasKey fp = true :=
          JMap.get_imp_hasKey _ _ _ hprev
        have hstep : (onChangeResume w fp none).1
            = { w with
                stats := w.stats.del fp
                queue := enqueueFileAsRemoved w.queue fp p0 } := by
          simp [onChangeResume, hDis, hprev, hAlive]
        rw [hstep]
        rcases hqfp : w.queue.get fp with _ | op
        · have henq : enqueueFileAsRemoved w.queue fp p0
              = w.queue.set fp { type := OpType.remove, stat := p0 } := by
            simp [enqueueFileAsRemoved, hqfp]
          rw [henq]
          refine ⟨JMap.nodupKeys_del _ _ hs, JMap.nodupKeys_set _ _ _ hq,
            fun h' => absurd hAlive h', ?_⟩
          intro _ p
          by_cases hp : p = fp
          · subst hp
            have hP := hadm hAlive p
            simp only [PathAdm, hqfp] at hP
            simp only [PathAdm, JMap.get_set_self]
            refine ⟨?_, ?_⟩
            · rw [JMap.hasKey_del _ _ _ hs]
              simp
            · rw [← hP]
              exact hKey
          · refine PathAdm_congr initAdm w _ done p ?_ ?_ (hadm hAlive p)
            · exact JMap.get_set_ne w.queue fp p _ (fun he => hp he.symm)
            · exact JMap.hasKey_del_ne w.stats fp p hp
        · obtain ⟨t, s0⟩ := op
          cases t with
          | add =>
            have henq : enqueueFileAsRemoved w.queue fp p0
                = w.queue.del fp := by
              simp [enqueueFileAsRemoved, hqfp]
            rw [henq]
            refine ⟨JMap.nodupKeys_del _ _ hs, JMap.nodupKeys_del _ _ hq,
              fun h' => absurd hAlive h', ?_⟩
            intro _ p
            by_cases hp : p = fp
            · subst hp
              have hP := hadm hAlive p
              simp only [PathAdm, hqfp] at hP
              simp only [PathAdm, JMap.get_del_self w.queue p hq]
              rw [JMap.hasKey_del _ _ _ hs]
              simp [hP.2]
            · refine PathAdm_congr initAdm w _ done p ?_ ?_ (hadm hAlive p)
              · exact JMap.get_del_ne w.queue fp p (fun he => hp he.symm)
              · exact JMap.hasKey_del_ne w.stats fp p hp
          | change =>
            have henq : enqueueFileAsRemoved w.queue fp p0
                = w.queue.set fp { type := OpType.remove, stat := p0 } := by
              simp [enqueueFileAsRemoved, hqfp]
            rw [henq]
            refine ⟨JMap.nodupKeys_del _ _ hs, JMap.nodupKeys_set _ _ _ hq,
              fun h' => absurd hAlive h', ?_⟩
            intro _ p
            by_cases hp : p = fp
            · subst hp
              have hP := hadm hAlive p
              simp only [PathAdm, hqfp] at hP
              simp only [PathAdm, JMap.get_set_self]
              refine ⟨?_, hP.2⟩
              rw [JMap.hasKey_del _ _ _ hs]
              simp
            · refine PathAdm_congr initAdm w _ done p ?_ ?_ (hadm hAlive p)
              · exact JMap.get_set_ne w.queue fp p _ (fun he => hp he.symm)
              · exact JMap.hasKey_del_ne w.stats fp p hp
          | remove =>
            have hP := hadm hAlive fp
            simp only [PathAdm, hqfp] at hP
            rw [hP.1] at hKey
            exact absurd hKey (by simp)
    · -- the file is present
      rcases hprev : w.stats.get fp with _ | p0
      · -- newly observed: enqueue as added
        have hKeyF : w.stats.hasKey fp = false := by
          simp [JMap.hasKey, hprev]
        have hstep : (onChangeResume w fp (some cs)).1
            = { w with
                stats := w.stats.set fp cs
                queue := enqueueFileAsAdded w.queue fp cs } := by
          simp [onChangeResume, hDis, hprev, hAlive]
        rw [hstep]
        rcases hqfp : w.queue.get fp with _ | op
        · have henq : enqueueFileAsAdded w.queue fp cs
              = w.queue.set fp { type := OpType.add, stat := cs } := by
            simp [enqueueFileAsAdded, hqfp]
          rw [henq]
          refine ⟨JMap.nodupKeys_set _ _ _ hs, JMap.nodupKeys_set _ _ _ hq,
            fun h' => absurd hAlive h', ?_⟩
          intro _ p
          by_cases hp : p = fp
          · subst hp
            have hP := hadm hAlive p
            simp only [PathAdm, hqfp] at hP
            simp only [PathAdm, JMap.get_set_self]
            refine ⟨by simp [JMap.hasKey_set], ?_⟩
            rw [← hP]
            exact hKeyF
          · refine PathAdm_congr initAdm w _ done p ?_ ?_ (hadm hAlive p)
            · exact JMap.get_set_ne w.queue fp p _ (fun he => hp he.symm)
            · exact JMap.hasKey_set_ne w.stats fp cs p hp
        · obtain ⟨t, s0⟩ := op
          cases t with
          | add =>
            have hP := hadm hAlive fp
            simp only [PathAdm, hqfp] at hP
            rw [hP.1] at hKeyF
            exact absurd hKeyF (by simp)
          | change =>
            have hP := hadm hAlive fp
            simp only [PathAdm, hqfp] at hP
            rw [hP.1] at hKeyF
            exact absurd hKeyF (by simp)
          | remove =>
            have henq : enqueueFileAsAdded w.queue fp cs
                = w.queue.set fp { type := OpType.change, stat := cs } := by
              simp [enqueueFileAsAdded, hqfp]
            rw [henq]
            refine ⟨JMap.nodupKeys_set _ _ _ hs, JMap.nodupKeys_set _ _ _ hq,
              fun h' => absurd hAlive h', ?_⟩
            intro _ p
            by_cases hp : p = fp
            · subst hp
              have hP := hadm hAlive p
              simp only [PathAdm, hqfp] at hP
              simp only [PathAdm, JMap.get_set_self]
              exact ⟨by simp [JMap.hasKey_set], hP.2⟩
            · refine PathAdm_congr initAdm w _ done p ?_ ?_ (hadm hAlive p)
              · exact JMap.get_set_ne w.queue fp p _ (fun he => hp he.symm)
              · exact JMap.hasKey_set_ne w.stats fp cs p hp
      · -- previously observed
        have hKey : w.stats.hasKey fp = true :=
          JMap.get_imp_hasKey _ _ _ hprev
        by_cases hdir : cs.isDirectory = true
        · -- directory mtime churn: record, enqueue nothing
          have hstep : (onChangeResume w fp (some cs)).1
              = { w with stats := w.stats.set fp cs } := by
            simp [onChangeResume, hDis, hprev, hAlive, hdir]
          rw [hstep]
          refine ⟨JMap.nodupKeys_set _ _ _ hs, hq,
            fun h' => absurd hAlive h', ?_⟩
          intro _ p
          refine PathAdm_congr initAdm w _ done p rfl ?_ (hadm hAlive p)
          by_cases hp : p = fp
          · subst hp
            rw [JMap.hasKey_set]
            simp only [if_pos rfl]
            exact hKey.symm
          · exact JMap.hasKey_set_ne w.stats fp cs p hp
        · -- regular file changed: enqueue as changed
          have hstep : (onChangeResume w fp (some cs)).1
              = { w with
                  stats := w.stats.set fp cs
                  queue := enqueueFileAsChanged w.queue fp cs } := by
            simp [onChangeResume, hDis, hprev, hAlive, hdir]
          rw [hstep]
          rcases hqfp : w.queue.get fp with _ | op
          · have henq : enqueueFileAsChanged w.queue fp cs
                = w.queue.set fp { type := OpType.change, stat := cs } := by
              simp [enqueueFileAsChanged, hqfp]
            rw [henq]
            refine ⟨JMap.nodupKeys_set _ _ _ hs, JMap.nodupKeys_set _ _ _ hq,
              fun h' => absurd hAlive h', ?_⟩
            intro _ p
            by_cases hp : p = fp
            · subst hp
              have hP := hadm hAlive p
              simp only [PathAdm, hqfp] at hP
              simp only [PathAdm, JMap.get_set_self]
              refine ⟨by simp [JMap.hasKey_set], ?_⟩
              rw [← hP]
              exact hKey
            · refine PathAdm_congr initAdm w _ done p ?_ ?_ (hadm hAlive p)
              · exact JMap.get_set_ne w.queue fp p _ (fun he => hp he.symm)
              · exact JMap.hasKey_set_ne w.stats fp cs p hp
          · obtain ⟨t, s0⟩ := op
            cases t with
            | add =>
              have henq : enqueueFileAsChanged w.queue fp cs
                  = w.queue.set fp { type := OpType.add, stat := cs } := by
                simp [enqueueFileAsChanged, hqfp]
              rw [henq]
              refine ⟨JMap.nodupKeys_set _ _ _ hs,
                JMap.nodupKeys_set _ _ _ hq,
                fun h' => absurd hAlive h', ?_⟩
              intro _ p
              by_cases hp : p = fp
              · subst hp
                have hP := hadm hAlive p
                simp only [PathAdm, hqfp] at hP
                simp only [PathAdm, JMap.get_set_self]
                exact ⟨by simp [JMap.hasKey_set], hP.2⟩
              · refine PathAdm_congr initAdm w _ done p ?_ ?_
                  (hadm hAlive p)
                · exact JMap.get_set_ne w.queue fp p _
                    (fun he => hp he.symm)
                · exact JMap.hasKey_set_ne w.stats fp cs p hp
            | change =>
              have henq : enqueueFileAsChanged w.queue fp cs
                  = w.queue.set fp { type := OpType.change, stat := cs }
                  := by
                simp [enqueueFileAsChanged, hqfp]
              rw [henq]
              refine ⟨JMap.nodupKeys_set _ _ _ hs,
                JMap.nodupKeys_set _ _ _ hq,
                fun h' => absurd hAlive h', ?_⟩
              intro _ p
              by_cases hp : p = fp
              · subst hp
                have hP := hadm hAlive p
                simp only [PathAdm, hqfp] at hP
                simp only [PathAdm, JMap.get_set_self]
                exact ⟨by simp [JMap.hasKey_set], hP.2⟩
              · refine PathAdm_congr initAdm w _ done p ?_ ?_
                  (hadm hAlive p)
                · exact JMap.get_set_ne w.queue fp p _
                    (fun he => hp he.symm)
                · exact JMap.hasKey_set_ne w.stats fp cs p hp
            | remove =>
              have hP := hadm hAlive fp
              simp only [PathAdm, hqfp] at hP
              rw [hP.1] at hKey
              exact absurd hKey (by simp)

/-- One step of the native-watcher system preserves the system admission
invariant, and every event of the step's batch is admitted at its position
(the batch is a debounce flush: its events come from distinct queue keys,
so the earlier batch events never disturb a later one's admission). -/
theorem sys_step_adm (initAdm : Nat → String → Bool) (s : Sys)
    (done : List (Nat × EmittedEvent)) (a : Act)
    (h : SysAdmInv initAdm s done) :
    SysAdmInv initAdm (s.step a).1 (done ++ (s.step a).2) ∧
    (∀ (bpre : List (Nat × EmittedEvent)) (wid : Nat) (e : EmittedEvent)
        (bpost : List (Nat × EmittedEvent)),
      (s.step a).2 = bpre ++ (wid, e) :: bpost →
      e.type ≠ OpType.add →
      admittedAfter e.path (initAdm wid e.path)
        (eventsFor wid (done ++ bpre)) = true) := by
  obtain ⟨hnodup, hws⟩ := h
  cases a with
  | observe wid0 fp c =>
    rcases hget : s.watchers.get wid0 with _ | w
    · have hstep1 : (s.step (Act.observe wid0 fp c)).1 = s := by
        simp [Sys.step, hget]
      have hstep2 : (s.step (Act.observe wid0 fp c)).2 = [] := by
        simp [Sys.step, hget]
      refine ⟨?_, ?_⟩
      · rw [hstep1, hstep2, List.append_nil]
        exact ⟨hnodup, hws⟩
      · intro bpre wid e bpost hsplit _
        rw [hstep2] at hsplit
        exact absurd hsplit.symm (List.append_ne_nil_of_right_ne_nil bpre
          (List.cons_ne_nil _ bpost))
    · have hstep1 : (s.step (Act.observe wid0 fp c)).1
          = { watchers := s.watchers.set wid0 (onChangeResume w fp c).1
              deb := if (onChangeResume w fp c).2 then debCall wid0
                else s.deb } := by
        simp [Sys.step, hget]
      have hstep2 : (s.step (Act.observe wid0 fp c)).2 = [] := by
        simp [Sys.step, hget]
      refine ⟨?_, ?_⟩
      · rw [hstep1, hstep2, List.append_nil]
        refine ⟨JMap.nodupKeys_set _ _ _ hnodup, ?_⟩
        intro kv hkv
        rcases JMap.mem_set_elim_ne s.watchers wid0 _ kv hnodup hkv
          with hkv' | hkv'
        · rw [hkv']
          exact onChangeResume_adm (initAdm wid0) w (eventsFor wid0 done)
            fp c (hws (wid0, w) (JMap.get_mem s.watchers wid0 w hget))
        · exact hws kv hkv'.1
      · intro bpre wid e bpost hsplit _
        rw [hstep2] at hsplit
        exact absurd hsplit.symm (List.append_ne_nil_of_right_ne_nil bpre
          (List.cons_ne_nil _ bpost))
  | fire =>
    rcases hact : s.deb.timerActive with _ | _
    · have hstep1 : (s.step Act.fire).1 = s := by
        simp [Sys.step, hact]
      have hstep2 : (s.step Act.fire).2 = [] := by
        simp [Sys.step, hact]
      refine ⟨?_, ?_⟩
      · rw [hstep1, hstep2, List.append_nil]
        exact ⟨hnodup, hws⟩
      · intro bpre wid e bpost hsplit _
        rw [hstep2] at hsplit
        exact absurd hsplit.symm (List.append_ne_nil_of_right_ne_nil bpre
          (List.cons_ne_nil _ bpost))
    · rcases hctx : s.deb.context with _ | wid0
      · have hstep1 : (s.step Act.fire).1
            = { s with deb := { timerActive := false, context := none } }
            := by
          simp [Sys.step, hact, hctx]
        have hstep2 : (s.step Act.fire).2 = [] := by
          simp [Sys.step, hact, hctx]
        refine ⟨?_, ?_⟩
        · rw [hstep1, hstep2, List.append_nil]
          exact ⟨hnodup, hws⟩
        · intro bpre wid e bpost hsplit _
          rw [hstep2] at hsplit
          exact absurd hsplit.symm (List.append_ne_nil_of_right_ne_nil bpre
            (List.cons_ne_nil _ bpost))
      · rcases hget : s.watchers.get wid0 with _ | w
        · have hstep1 : (s.step Act.fire).1
              = { s with deb := { timerActive := false, context := none } }
              := by
            simp [Sys.step, hact, hctx, hget]
          have hstep2 : (s.step Act.fire).2 = [] := by
            simp [Sys.step, hact, hctx, hget]
          refine ⟨?_, ?_⟩
          · rw [hstep1, hstep2, List.append_nil]
            exact ⟨hnodup, hws⟩
          · intro bpre wid e bpost hsplit _
            rw [hstep2] at hsplit
            exact absurd hsplit.symm
              (List.append_ne_nil_of_right_ne_nil bpre
                (List.cons_ne_nil _ bpost))
        · -- the debounce flush of instance `wid0`
          have hw : RegWAdm (initAdm wid0) w (eventsFor wid0 done) :=
            hws (wid0, w) (JMap.get_mem s.watchers wid0 w hget)
          have hstep1 : (s.step Act.fire).1
              = { watchers := s.watchers.set wid0
                    { w with queue := JMap.empty }
                  deb := { timerActive := false, context := none } } := by
            simp [Sys.step, hact, hctx, hget, consumeQueueRaw]
          have hstep2 : (s.step Act.fire).2
              = ((JMap.entries w.queue).map
                  (fun kv => ({ type := kv.2.type, path := kv.1, stat := kv.2.stat } : EmittedEvent))).map
                  (fun e => (wid0, e)) := by
            simp [Sys.step, hact, hctx, hget, consumeQueueRaw]
          have hreg : RegWAdm (initAdm wid0) { w with queue := JMap.empty }
              (eventsFor wid0 done ++ (JMap.entries w.queue).map
                (fun kv => ({ type := kv.2.type, path := kv.1, stat := kv.2.stat } : EmittedEvent))) := by
            refine ⟨hw.1, JMap.nodupKeys_empty, fun _ => rfl, ?_⟩
            intro hAlive p
            have hP := hw.2.2.2 hAlive p
            simp only [PathAdm, JMap.get_empty]
            rw [admittedAfter_append,
              admittedAfter_flush p w.queue hw.2.1]
            rcases hqp : w.queue.get p with _ | op
            · simp only [PathAdm, hqp] at hP
              simp only [hqp]
              exact hP
            · obtain ⟨t, s0⟩ := op
              cases t with
              | add =>
                simp only [PathAdm, hqp] at hP
                simp only [hqp]
                exact hP.1
              | change =>
                simp only [PathAdm, hqp] at hP
                simp only [hqp]
                rw [hP.1, hP.2]
              | remove =>
                simp only [PathAdm, hqp] at hP
                simp only [hqp]
                exact hP.1
          refine ⟨?_, ?_⟩
          · rw [hstep1, hstep2]
            refine ⟨JMap.nodupKeys_set _ _ _ hnodup, ?_⟩
            intro kv hkv
            rcases JMap.mem_set_elim_ne s.watchers wid0 _ kv hnodup hkv
              with hkv' | hkv'
            · rw [hkv']
              have heq : eventsFor wid0 (done ++ ((JMap.entries w.queue).map
                    (fun kv => ({ type := kv.2.type, path := kv.1, stat := kv.2.stat } : EmittedEvent))).map
                    (fun e => (wid0, e)))
                  = eventsFor wid0 done ++ (JMap.entries w.queue).map
                    (fun kv => ({ type := kv.2.type, path := kv.1, stat := kv.2.stat } : EmittedEvent)) := by
                rw [eventsFor_append, eventsFor_map_self]
              exact heq.symm ▸ hreg
            · have heq : eventsFor kv.1 (done ++ ((JMap.entries w.queue).map
                    (fun kv => ({ type := kv.2.type, path := kv.1, stat := kv.2.stat } : EmittedEvent))).map
                    (fun e => (wid0, e)))
                  = eventsFor kv.1 done := by
                rw [eventsFor_append,
                  eventsFor_map_other kv.1 wid0 (fun he => hkv'.2 he.symm),
                  List.append_nil]
              rw [heq]
              exact hws kv hkv'.1
          · intro bpre wid e bpost hsplit ht
            rw [hstep2] at hsplit
            obtain ⟨u, ev0, v, hl, hbpre, hx, hbpost⟩ :=
              map_eq_append_cons_decomp (fun e => (wid0, e)) _ bpre
                (wid, e) bpost hsplit
            have hx' : (wid, e) = (wid0, ev0) := hx
            injection hx' with hwid he
            subst hwid
            subst he
            obtain ⟨u', kv0, v', hl2, hu, hev0, hv⟩ :=
              map_eq_append_cons_decomp
                (fun kv => ({ type := kv.2.type, path := kv.1, stat := kv.2.stat } : EmittedEvent))
                (JMap.entries w.queue) u e v hl
            obtain ⟨k0, op0⟩ := kv0
            have hev0' : e
                = { type := op0.type, path := k0, stat := op0.stat } :=
              hev0
            subst hev0'
            have ht' : op0.type ≠ OpType.add := ht
            show admittedAfter k0 (initAdm wid k0)
              (eventsFor wid (done ++ bpre)) = true
            by_cases hAliveW : w.state = LifecycleState.Alive
            · have hqn : ((JMap.entries w.queue).map Prod.fst).Nodup :=
                hw.2.1
              rw [hl2] at hqn
              have hqn' : (u'.map Prod.fst ++ k0 :: v'.map Prod.fst).Nodup
                  := by
                simpa using hqn
              have hu'ne : ∀ kv ∈ u', kv.1 ≠ k0 := by
                intro kv hkv hcontra
                have hk0mem : k0 ∈ u'.map Prod.fst :=
                  List.mem_map.mpr ⟨kv, hkv, hcontra⟩
                have hnm := List.nodup_middle.mp hqn'
                rw [List.nodup_cons] at hnm
                exact hnm.1 (List.mem_append.mpr (Or.inl hk0mem))
              have hqget : w.queue.get k0 = some op0 := by
                have hqe : w.queue = u' ++ (k0, op0) :: v' := hl2
                rw [hqe]
                exact JMap.get_of_split u' v' k0 op0 hu'ne
              have hbfull : eventsFor wid (done ++ bpre)
                  = eventsFor wid done ++ u'.map
                    (fun kv => ({ type := kv.2.type, path := kv.1, stat := kv.2.stat } : EmittedEvent)) := by
                rw [hbpre, hu, eventsFor_append, eventsFor_map_self]
              rw [hbfull, admittedAfter_append]
              have huev : ∀ ev ∈ u'.map
                  (fun kv => ({ type := kv.2.type, path := kv.1, stat := kv.2.stat } : EmittedEvent)), ev.path ≠ k0 := by
                intro ev hev
                rw [List.mem_map] at hev
                obtain ⟨kv, hkv, hkvev⟩ := hev
                rw [← hkvev]
                exact hu'ne kv hkv
              rw [admittedAfter_untouched k0 _ huev]
              have hP := hw.2.2.2 hAliveW k0
              simp only [PathAdm, hqget] at hP
              obtain ⟨t0, st0⟩ := op0
              cases t0 with
              | add => exact absurd rfl ht'
              | change => exact hP.2
              | remove => exact hP.2
            · have hqempty : w.queue = JMap.empty := hw.2.2.1 hAliveW
              rw [hqempty] at hl2
              have hcontra : ([] : List (String × Operation))
                  = u' ++ (k0, op0) :: v' := hl2
              exact absurd hcontra.symm
                (List.append_ne_nil_of_right_ne_nil u'
                  (List.cons_ne_nil _ v'))
  | closeCall wid0 =>
    have hstep2 : (s.step (Act.closeCall wid0)).2 = [] := rfl
    refine ⟨?_, ?_⟩
    · rw [hstep2, List.append_nil]
      rcases hget : s.watchers.get wid0 with _ | w
      · have h1 : (s.step (Act.closeCall wid0)).1 = s := by
          simp [Sys.step, Sys.closeW, hget]
        rw [h1]
        exact ⟨hnodup, hws⟩
      · by_cases hDis : w.state = LifecycleState.Disposed
        · have h1 : (s.step (Act.closeCall wid0)).1 = s := by
            simp [Sys.step, Sys.closeW, hget, hDis]
          rw [h1]
          exact ⟨hnodup, hws⟩
        · have h1 : (s.step (Act.closeCall wid0)).1
              = { watchers := s.watchers.set wid0
                    { w with
                      stats := JMap.empty
                      queue := JMap.empty
                      state := LifecycleState.Disposed }
                  deb := debClear s.deb } := by
            simp [Sys.step, Sys.closeW, hget, hDis]
          rw [h1]
          refine ⟨JMap.nodupKeys_set _ _ _ hnodup, ?_⟩
          intro kv hkv
          rcases JMap.mem_set_elim_ne s.watchers wid0 _ kv hnodup hkv
            with hkv' | hkv'
          · rw [hkv']
            exact ⟨JMap.nodupKeys_empty, JMap.nodupKeys_empty,
              fun _ => rfl, fun hA => by simp at hA⟩
          · exact hws kv hkv'.1
    · intro bpre wid e bpost hsplit _
      rw [hstep2] at hsplit
      exact absurd hsplit.symm (List.append_ne_nil_of_right_ne_nil bpre
        (List.cons_ne_nil _ bpost))

/-- A run of the native-watcher system: whenever the interleaved event
stream splits around a non-`add` event of instance `wid`, that instance's
own stream up to the event leaves the path admitted. -/
theorem sys_run_adm (initAdm : Nat → String → Bool) (acts : List Act) :
    ∀ (s : Sys) (done : List (Nat × EmittedEvent)),
      SysAdmInv initAdm s done →
      ∀ (pre : List (Nat × EmittedEvent)) (wid : Nat) (e : EmittedEvent)
        (post : List (Nat × EmittedEvent)),
        (s.run acts).2 = pre ++ (wid, e) :: post →
        e.type ≠ OpType.add →
        admittedAfter e.path (initAdm wid e.path)
          (eventsFor wid (done ++ pre)) = true := by
  induction acts with
  | nil =>
    intro s done _ pre wid e post hsplit _
    simp only [Sys.run] at hsplit
    exact absurd hsplit.symm (List.append_ne_nil_of_right_ne_nil pre
      (List.cons_ne_nil _ post))
  | cons a rest ih =>
    intro s done h pre wid e post hsplit ht
    have hstep := sys_step_adm initAdm s done a h
    have hshape : (s.run (a :: rest)).2
        = (s.step a).2 ++ ((s.step a).1.run rest).2 := rfl
    rw [hshape] at hsplit
    rcases List.append_eq_append_iff.mp hsplit with
      ⟨a', ha1, ha2⟩ | ⟨c', hc1, hc2⟩
    · have hres := ih (s.step a).1 (done ++ (s.step a).2) hstep.1 a' wid e
        post ha2 ht
      rw [ha1]
      have hassoc : done ++ ((s.step a).2 ++ a')
          = (done ++ (s.step a).2) ++ a' := by
        rw [List.append_assoc]
      rw [hassoc]
      exact hres
    · cases c' with
      | nil =>
        rw [List.append_nil] at hc1
        simp only [List.nil_append] at hc2
        have hres := ih (s.step a).1 (done ++ (s.step a).2) hstep.1 []
          wid e post hc2.symm ht
        rw [List.append_nil] at hres
        rw [← hc1]
        exact hres
      | cons y c'' =>
        have hy : y = (wid, e) := by
          have hc2' := hc2
          simp only [List.cons_append] at hc2'
          exact ((List.cons.injEq _ _ _ _ ▸ hc2').1).symm
        rw [hy] at hc1
        exact hstep.2 pre wid e c'' hc1 ht

/-- C7 (amended): every `remove` or `change` event of every watcher
implementation is emitted for a path admitted at that point: either the
path was in `stats` at the Alive transition (the silent initial set,
announced via `stats` rather than `add` events) with no later `remove`
for it before the event, or a prior `add` was emitted for it with no
intervening `remove` — `admittedAfter` with the initial set as the
baseline is true at the emission point.  Stated for the glob watcher, the
polling watcher, and the native-watcher system (per instance, against its
own event stream). -/
theorem c7_remove_change_only_when_admitted :
    (∀ (isM : String → Bool) (init : JMap String Stats),
      init.NodupKeys →
      ∀ (steps : List GlobAct) (pre : List EmittedEvent)
        (e : EmittedEvent) (post : List EmittedEvent),
        (globRun isM (globAliveStart init) steps).2 = pre ++ e :: post →
        e.type ≠ OpType.add →
        admittedAfter e.path (init.hasKey e.path) pre = true) ∧
    (∀ (init : JMap String Stats) (listeners : JMap String Unit),
      init.NodupKeys →
      ∀ (acts : List PollAct) (pre : List EmittedEvent)
        (e : EmittedEvent) (post : List EmittedEvent),
        (pollRun (pollAliveStart init listeners) acts).2
            = pre ++ e :: post →
        e.type ≠ OpType.add →
        admittedAfter e.path (init.hasKey e.path) pre = true) ∧
    (∀ (initAdm : Nat → String → Bool) (s : Sys) (acts : List Act),
      SysAdmInv initAdm s [] →
      ∀ (pre : List (Nat × EmittedEvent)) (wid : Nat) (e : EmittedEvent)
        (post : List (Nat × EmittedEvent)),
        (Sys.run s acts).2 = pre ++ (wid, e) :: post →
        e.type ≠ OpType.add →
        admittedAfter e.path (initAdm wid e.path) (eventsFor wid pre)
          = true) := by
  refine ⟨?_, ?_, ?_⟩
  · intro isM init hinit steps pre e post hsplit ht
    have h0 : AdmInv (fun p => init.hasKey p) (globAliveStart init) [] := by
      refine ⟨hinit, by simp [globAliveStart], ?_⟩
      intro _ p
      rfl
    have hmain := globRun_adm isM (fun p => init.hasKey p) steps
      (globAliveStart init) [] h0 pre e post hsplit ht
    simpa using hmain
  · intro init listeners hinit acts pre e post hsplit ht
    have h0 : PollAdmInv (fun p => init.hasKey p)
        (pollAliveStart init listeners) [] := by
      refine ⟨hinit, ?_⟩
      intro _ p
      rfl
    have hmain := pollRun_adm (fun p => init.hasKey p) acts
      (pollAliveStart init listeners) [] h0 pre e post hsplit ht
    simpa using hmain
  · intro initAdm s acts h0 pre wid e post hsplit ht
    have hmain := sys_run_adm initAdm acts s [] h0 pre wid e post hsplit ht
    simpa using hmain

/-- Witness for C7 (amended): a `change` on a file present in the silent
initial set is admitted by the baseline. -/
theorem c7_remove_change_only_when_admitted_witness :
    admittedAfter "f"
        (JMap.hasKey [("f", sampleStat)] "f") [] = true :=
  c7_remove_change_only_when_admitted.1 (fun _ => true)
    [("f", sampleStat)] (by decide)
    [GlobAct.changeFile "f" sampleStat2] []
    { type := OpType.change, path := "f", stat := sampleStat2 } []
    (by decide) (by decide)

end FsWatcher
